import Mathlib

/-! libserv: a shallow embedding of `src/libserv.c`

The C functions are embedded as Lean functions over an explicit environment:

* the results of the system calls (`read`, `write`, `accept4`, `getaddrinfo`, ...) are
  inputs of the model, consumed in call order;
* every externally visible action (a system call, a callback invocation, a log line) is
  appended to a trace, so that "is called", "exactly once" and "in this order" are
  statements about lists;
* `int` arithmetic is arithmetic on `Int` reduced to the 32-bit two's-complement range;
* descriptors that are known not to be -1 (the listener, the accepted descriptors) are
  natural numbers, and an `fd_set` is the finite set of the descriptors whose bit is set
  (the capacity `FD_SETSIZE` of an `fd_set` is not part of the model);
* `read_handler` and `on_accept` are callbacks of the application: the model records
  their invocations and takes the values `read_handler` returns from the environment.
-/

namespace Libserv

/-! ## Machine integers -/

/-- Largest value of a C `int` (32 bit). -/
def INT_MAX : Int := 2147483647

/-- The value stored in a 32-bit `int` when the mathematical result is `x`. -/
def wrap32 (x : Int) : Int := (x + 2147483648) % 4294967296 - 2147483648

/-! ## Traces -/

/-- Externally visible actions of the library, in the order they happen. -/
inductive Act where
  /-- Call of `getaddrinfo(hostname, port, &hints, &servinfo)`. -/
  | getaddrinfo
  /-- Call of `socket(...)`. -/
  | socket
  /-- Call of `setsockopt(fd, SOL_SOCKET, SO_REUSEADDR, ...)`. -/
  | setsockopt
  /-- Call of `bind(fd, ...)`. -/
  | bind
  /-- Call of `listen(fd, 5)`. -/
  | listen
  /-- Call of `connect(fd, ...)`. -/
  | connect
  /-- Call of `freeaddrinfo(servinfo)`. -/
  | freeaddrinfo
  /-- Call of `error(msg)` or `perror(msg)`: one line on the log. -/
  | log (msg : String)
  /-- Call of `tcp_accept(listener_fd, ...)`, that is one `accept4` on the listener. -/
  | accept_call
  /-- Call of `epoll_wait(fd_epoll, events, MAXEVENTS, -1)`. -/
  | epoll_wait
  /-- Call of `epoll_ctl(fd_epoll, EPOLL_CTL_ADD, fd, &event)`. -/
  | epoll_add (fd : Nat)
  /-- Call of `select(nfds, &fds_read, NULL, NULL, NULL)`, with the set handed in. -/
  | select_call (nfds : Nat) (fds : Finset Nat)
  /-- Execution of `FD_SET(fd, &fds_master)`. -/
  | fd_set (fd : Nat)
  /-- Execution of `FD_CLR(fd, &fds_master)`. -/
  | fd_clr (fd : Nat)
  /-- Invocation `(*on_accept)(fd, cli_addr, cli_port)`. -/
  | on_accept (fd : Nat)
  /-- Invocation `(*read_handler)(fd)`. -/
  | read_handler (fd : Nat)
  /-- Call of `close(fd)`. -/
  | close (fd : Nat)
deriving DecidableEq

/-! ## `tcp_read` and `tcp_write` -/

/-- The loop of `tcp_read`, with `total` the current `total_read`.  The list holds the
values the successive `read` calls leave in `nread`; the result is the returned count
together with the read results that were not consumed.  `none`: the list ran out while
the loop still wanted to call `read`. -/
def tcp_read_loop (size : Int) : List Int → Int → Option (Int × List Int)
  | [], total => if total ≠ size then none else some (total, [])
  | r :: rs, total =>
    if total ≠ size then
      let nread := r
      if nread ≤ 0 then some (total, rs)
      else tcp_read_loop size rs (wrap32 (total + nread))
    else some (total, r :: rs)

/-- Function `int tcp_read(int fd, char *buf, int size)` over the results of its `read` calls. -/
def tcp_read (size : Int) (reads : List Int) : Option (Int × List Int) :=
  tcp_read_loop size reads 0

/-- The loop of `tcp_write`, with `total` the current `total_written`; same conventions
as `tcp_read_loop`. -/
def tcp_write_loop (size : Int) : List Int → Int → Option (Int × List Int)
  | [], total => if total ≠ size then none else some (total, [])
  | w :: ws, total =>
    if total ≠ size then
      let nwritten := w
      if nwritten = 0 then some (total, ws)
      else if nwritten = -1 then some (-1, ws)
      else tcp_write_loop size ws (wrap32 (total + nwritten))
    else some (total, w :: ws)

/-- Function `int tcp_write(int fd, char *buf, int size)` over the results of its `write` calls. -/
def tcp_write (size : Int) (writes : List Int) : Option (Int × List Int) :=
  tcp_write_loop size writes 0

/-- The write results respect the contract of `write` along the run of `tcp_write`: each
result the loop consumes is `-1`, `0`, or a positive count no larger than the count
requested (`size - total`). Results after the one that ends the loop are unconstrained. -/
def validWrites (size : Int) : List Int → Int → Prop
  | [], _ => True
  | w :: ws, total =>
    total = size ∨ w = -1 ∨ w = 0 ∨ (0 < w ∧ w ≤ size - total ∧ validWrites size ws (total + w))

/-! ## `tcp_create_listener` and `tcp_connect` -/

/-- Results of the system calls made while a socket is set up. -/
structure SockEnv where
  /-- Return value of `getaddrinfo` (0 on success) -/
  getaddrinfo : Int
  /-- Return value of `socket` (-1 on failure) -/
  socket : Int
  /-- Return value of `setsockopt` (-1 on failure) -/
  setsockopt : Int
  /-- Return value of `bind` (-1 on failure) -/
  bind : Int
  /-- Return value of `listen` (-1 on failure) -/
  listen : Int
  /-- Return value of `connect` (-1 on failure) -/
  connect : Int

/-- Function `int tcp_create_listener(char *hostname, char *port)`: returned value and trace. -/
def tcp_create_listener (env : SockEnv) : Int × List Act :=
  if env.getaddrinfo ≠ 0 then (-1, [Act.getaddrinfo, Act.log "getaddrinfo"])
  else if env.socket = -1 then (-1, [Act.getaddrinfo, Act.socket, Act.log "socket"])
  else if env.setsockopt = -1 then
    (-1, [Act.getaddrinfo, Act.socket, Act.setsockopt, Act.log "setsockopt"])
  else if env.bind = -1 then
    (-1, [Act.getaddrinfo, Act.socket, Act.setsockopt, Act.bind, Act.log "bind"])
  else if env.listen = -1 then
    (-1, [Act.getaddrinfo, Act.socket, Act.setsockopt, Act.bind, Act.listen, Act.log "listen"])
  else (env.socket, [Act.getaddrinfo, Act.socket, Act.setsockopt, Act.bind, Act.listen])

/-- Function `int tcp_connect(char *hostname, char *port)`: returned value and trace.  After a
failed `getaddrinfo` the function logs and falls through to `socket` (there is no
`return` in that branch); the model lets `socket` and `connect` answer as the
environment says, although `servinfo` is then uninitialised. -/
def tcp_connect (env : SockEnv) : Int × List Act :=
  let t₀ : List Act :=
    if env.getaddrinfo ≠ 0 then [Act.getaddrinfo, Act.log "getaddrinfo"] else [Act.getaddrinfo]
  if env.socket = -1 then (-1, t₀ ++ [Act.socket, Act.log "socket"])
  else if env.connect = -1 then (-1, t₀ ++ [Act.socket, Act.connect, Act.log "connect"])
  else (env.socket, t₀ ++ [Act.socket, Act.connect, Act.freeaddrinfo])

/-! ## `tcp_accept` -/

/-- The two `errno` constants the library tests; their values come from `<errno.h>` of
the target platform. -/
structure Errno where
  EAGAIN : Int
  EWOULDBLOCK : Int

/-- Linux: `EAGAIN` and `EWOULDBLOCK` are both 11. -/
def linuxErrno : Errno := ⟨11, 11⟩

/-- Result of one `accept4` call on the non-blocking listener: a new descriptor, or -1
with `errno` set. -/
inductive AcceptRes where
  | conn (fd : Nat)
  | fail (errno : Int)
deriving DecidableEq

/-- Return value of `accept4`. -/
def AcceptRes.ret : AcceptRes → Int
  | .conn fd => (fd : Int)
  | .fail _ => -1

/-- Value of `errno` after the call (0 stands for "not set by this call").  The callers
read `errno` after `tcp_accept` has returned; the model takes it to be the value
`accept4` left, that is, the `printf` inside `error` is taken not to disturb it. -/
def AcceptRes.errno : AcceptRes → Int
  | .conn _ => 0
  | .fail e => e

/-- The condition `(errno != EAGAIN) || (errno != EWOULDBLOCK)` of `tcp_accept`. -/
def accept_error_cond (E : Errno) (errno : Int) : Bool :=
  (errno != E.EAGAIN) || (errno != E.EWOULDBLOCK)

/-- Function `int tcp_accept(int fd, char *ip, int *port, int flags)`: returned value and the log
lines written. -/
def tcp_accept (E : Errno) (a : AcceptRes) : Int × List Act :=
  let fd_new := a.ret
  if fd_new = -1 then
    if accept_error_cond E a.errno then (-1, [Act.log "accept4"]) else (-1, [])
  else (fd_new, [])

/-! ## `tcp_server`: what both variants share -/

/-- The arguments of `tcp_server` and the environment of its callbacks.  The listener
descriptor is the one `tcp_create_listener` returned (not -1, hence a natural number). -/
structure Server where
  /-- Values of the `errno` constants. -/
  E : Errno
  /-- Descriptor returned by `tcp_create_listener`. -/
  listener_fd : Nat
  /-- Whether `on_accept != NULL`. -/
  has_on_accept : Bool
  /-- Value returned by the `k`-th invocation of `read_handler`, made on descriptor `fd`. -/
  read_handler : (k : Nat) → (fd : Nat) → Int
  /-- Status returned by the `k`-th `epoll_ctl(EPOLL_CTL_ADD)` of the loop, made for `fd`. -/
  epoll_ctl : (k : Nat) → (fd : Nat) → Int

/-- Where the server is: still in its event loop, gone through `exit:` (it returned -1),
or at an `accept4` call for which the environment holds no result. -/
inductive Flow where
  | running
  | exited
  | starved
deriving DecidableEq

/-! ## `tcp_server`, `EPOLL` variant -/

/-- Bit of `EPOLLIN` in `<sys/epoll.h>`. -/
def EPOLLIN : Nat := 0x001

/-- Bit of `EPOLLERR` in `<sys/epoll.h>`. -/
def EPOLLERR : Nat := 0x008

/-- Bit of `EPOLLHUP` in `<sys/epoll.h>`. -/
def EPOLLHUP : Nat := 0x010

/-- One entry of the `events` array filled by `epoll_wait`. -/
structure EpollEvent where
  /-- The field `events`: a bit mask. -/
  events : Nat
  /-- The field `data.fd`. -/
  fd : Nat
deriving DecidableEq

/-- The condition of the first branch of the event loop:
`(events & EPOLLERR) || (events & EPOLLHUP) || !(events & EPOLLIN)`. -/
def EpollEvent.broken (e : EpollEvent) : Bool :=
  (e.events &&& EPOLLERR != 0) || (e.events &&& EPOLLHUP != 0) || !(e.events &&& EPOLLIN != 0)

/-- State of the `EPOLL` variant inside its event loop.  The registrations live in the
kernel; the program keeps no copy of them. -/
structure Epoll where
  /-- Results of the `accept4` calls still to come. -/
  accepts : List AcceptRes
  /-- Number of `epoll_ctl` calls made so far. -/
  nctl : Nat
  /-- Number of `read_handler` invocations made so far. -/
  nread : Nat
  /-- Actions performed so far. -/
  trace : List Act
  /-- Whether the loop is still running. -/
  flow : Flow

/-- The accept-drain sub-loop `while(1) { ... }` of the `EPOLL` variant; the list is the
field `accepts` of the state on entry. -/
def epoll_drain (c : Server) : List AcceptRes → Epoll → Epoll
  | [], s => { s with accepts := [], flow := Flow.starved }
  | a :: rest, s =>
    let r := tcp_accept c.E a
    let s₁ : Epoll := { s with accepts := rest, trace := s.trace ++ Act.accept_call :: r.2 }
    let cli_fd := r.1
    if cli_fd = -1 then
      if a.errno = c.E.EAGAIN ∨ a.errno = c.E.EWOULDBLOCK then s₁
      else { s₁ with trace := s₁.trace ++ [Act.log "accept"] }
    else
      let status := c.epoll_ctl s₁.nctl cli_fd.toNat
      let s₂ : Epoll :=
        { s₁ with nctl := s₁.nctl + 1, trace := s₁.trace ++ [Act.epoll_add cli_fd.toNat] }
      if status = -1 then
        { s₂ with trace := s₂.trace ++ [Act.log "epoll_ctl"], flow := Flow.exited }
      else
        let s₃ : Epoll :=
          if c.has_on_accept then { s₂ with trace := s₂.trace ++ [Act.on_accept cli_fd.toNat] }
          else s₂
        epoll_drain c rest s₃

/-- Body of `for(i = 0; i < nfds; i++)` of the `EPOLL` variant for the event `events[i]`. -/
def epoll_event (c : Server) (e : EpollEvent) (s : Epoll) : Epoll :=
  if e.broken then { s with trace := s.trace ++ [Act.close e.fd] }
  else if c.listener_fd = e.fd then epoll_drain c s.accepts s
  else
    let status := c.read_handler s.nread e.fd
    let s₁ : Epoll := { s with nread := s.nread + 1, trace := s.trace ++ [Act.read_handler e.fd] }
    if status ≠ 0 then { s₁ with trace := s₁.trace ++ [Act.close e.fd] } else s₁

/-- The loop `for(i = 0; i < nfds; i++)` of the `EPOLL` variant over the events of one
`epoll_wait`; it is left early only through `goto exit` (or a missing `accept4` result). -/
def epoll_events (c : Server) : List EpollEvent → Epoll → Epoll
  | [], s => s
  | e :: es, s =>
    let s₁ := epoll_event c e s
    if s₁.flow = Flow.running then epoll_events c es s₁ else s₁

/-- The event loop `while(1)` of the `EPOLL` variant over the results of the successive
`epoll_wait` calls: `none` is the return value -1, `some evs` the events filled in.
When the list is used up the server is blocked in `epoll_wait`, still running. -/
def epoll_loop (c : Server) : List (Option (List EpollEvent)) → Epoll → Epoll
  | [], s => s
  | none :: _, s =>
    { s with trace := s.trace ++ [Act.epoll_wait, Act.log "epoll_wait"], flow := Flow.exited }
  | some evs :: bs, s =>
    let s₁ := epoll_events c evs { s with trace := s.trace ++ [Act.epoll_wait] }
    if s₁.flow = Flow.running then epoll_loop c bs s₁ else s₁

/-- State of the `EPOLL` variant when it enters its event loop. -/
def epoll_init (accepts : List AcceptRes) : Epoll :=
  { accepts := accepts, nctl := 0, nread := 0, trace := [], flow := Flow.running }

/-! ## `tcp_server`, `select` variant -/

/-- State of the `select` variant inside its event loop.  An `fd_set` is the finite set
of the descriptors whose bit is set. -/
structure Select where
  /-- The variable `fds_master`. -/
  fds_master : Finset Nat
  /-- The variable `fds_read`. -/
  fds_read : Finset Nat
  /-- The variable `fdmax`. -/
  fdmax : Nat
  /-- Results of the `accept4` calls still to come. -/
  accepts : List AcceptRes
  /-- Number of `read_handler` invocations made so far. -/
  nread : Nat
  /-- Actions performed so far. -/
  trace : List Act
  /-- Whether the loop is still running. -/
  flow : Flow

/-- The accept-drain sub-loop `while(1) { ... }` of the `select` variant; the list is the
field `accepts` of the state on entry. -/
def select_drain (c : Server) : List AcceptRes → Select → Select
  | [], s => { s with accepts := [], flow := Flow.starved }
  | a :: rest, s =>
    let r := tcp_accept c.E a
    let s₁ : Select := { s with accepts := rest, trace := s.trace ++ Act.accept_call :: r.2 }
    let cli_fd := r.1
    if cli_fd = -1 then
      if a.errno = c.E.EAGAIN ∨ a.errno = c.E.EWOULDBLOCK then s₁
      else { s₁ with trace := s₁.trace ++ [Act.log "accept"] }
    else
      let s₂ : Select :=
        { s₁ with fds_master := insert cli_fd.toNat s₁.fds_master,
                  trace := s₁.trace ++ [Act.fd_set cli_fd.toNat] }
      let s₃ : Select := if cli_fd.toNat > s₂.fdmax then { s₂ with fdmax := cli_fd.toNat } else s₂
      let s₄ : Select :=
        if c.has_on_accept then { s₃ with trace := s₃.trace ++ [Act.on_accept cli_fd.toNat] }
        else s₃
      select_drain c rest s₄

/-- Body of `for(i = 0; i <= fdmax; i++)` of the `select` variant for the index `i`. -/
def select_dispatch (c : Server) (i : Nat) (s : Select) : Select :=
  if i ∈ s.fds_read then
    if i = c.listener_fd then select_drain c s.accepts s
    else
      let status := c.read_handler s.nread i
      let s₁ : Select := { s with nread := s.nread + 1, trace := s.trace ++ [Act.read_handler i] }
      if status ≠ 0 then
        { s₁ with fds_master := s₁.fds_master.erase i,
                  trace := s₁.trace ++ [Act.close i, Act.fd_clr i] }
      else s₁
  else s

/-- The accept-drain sub-loop consumes accept results and changes `fdmax` only when it
consumes one: what makes the scan below terminate. -/
theorem select_drain_measure (c : Server) (l : List AcceptRes) (s : Select) :
    (select_drain c l s).accepts.length ≤ l.length ∧
      (l = [] → (select_drain c l s).fdmax = s.fdmax) := by
  induction l generalizing s with
  | nil => simp [select_drain]
  | cons a rest ih =>
    refine ⟨?_, by simp⟩
    unfold select_drain
    simp only []
    split
    · split <;> simp
    · exact Nat.le_succ_of_le (ih _).1

/-- One index of the scan either consumes accept results or leaves `accepts` and `fdmax`
as they were. -/
theorem select_dispatch_measure (c : Server) (i : Nat) (s : Select) :
    (select_dispatch c i s).accepts.length < s.accepts.length ∨
      ((select_dispatch c i s).accepts.length = s.accepts.length ∧
        (select_dispatch c i s).fdmax = s.fdmax) := by
  unfold select_dispatch
  split
  · split
    · cases h : s.accepts with
      | nil => right; simp [select_drain]
      | cons a rest =>
        left
        unfold select_drain
        simp only []
        split
        · split <;> simp
        · exact Nat.lt_succ_of_le ((select_drain_measure c rest _).1)
    · right
      simp only []
      split <;> simp
  · right; simp

/-- The scan `for(i = 0; i <= fdmax; i++)` of the `select` variant from index `i` on.
The bound `fdmax` is read again at every iteration, as in the source. -/
def select_scan (c : Server) (i : Nat) (s : Select) : Select :=
  if i ≤ s.fdmax then
    let s₁ := select_dispatch c i s
    if s₁.flow = Flow.running then select_scan c (i + 1) s₁ else s₁
  else s
termination_by (s.accepts.length, s.fdmax + 1 - i)
decreasing_by
  rcases select_dispatch_measure c i s with h | ⟨h₁, h₂⟩
  · exact Prod.Lex.left _ _ h
  · rw [h₁, h₂]
    apply Prod.Lex.right
    omega

/-- What `select(nfds, &fds, NULL, NULL, NULL)` leaves in `fds` when it succeeds and
`ready` are the readable descriptors: the members of `fds` below `nfds` that are ready. -/
def select_result (nfds : Nat) (fds ready : Finset Nat) : Finset Nat :=
  fds.filter (fun x => x < nfds ∧ x ∈ ready)

/-- The event loop `while(1)` of the `select` variant over the results of the successive
`select` calls: `none` is the return value -1, `some ready` a success with the readable
descriptors.  When the list is used up the server is blocked in `select`, still running. -/
def select_loop (c : Server) : List (Option (Finset Nat)) → Select → Select
  | [], s => s
  | none :: _, s =>
    { s with fds_read := s.fds_master,
             trace := s.trace ++ [Act.select_call (s.fdmax + 1) s.fds_master, Act.log "select"],
             flow := Flow.exited }
  | some ready :: bs, s =>
    let s₁ : Select :=
      { s with fds_read := select_result (s.fdmax + 1) s.fds_master ready,
               trace := s.trace ++ [Act.select_call (s.fdmax + 1) s.fds_master] }
    let s₂ := select_scan c 0 s₁
    if s₂.flow = Flow.running then select_loop c bs s₂ else s₂

/-- State of the `select` variant when it enters its event loop: `FD_ZERO` on both sets,
`FD_SET(listener_fd, &fds_master)`, `fdmax = listener_fd`. -/
def select_init (c : Server) (accepts : List AcceptRes) : Select :=
  { fds_master := {c.listener_fd}, fds_read := ∅, fdmax := c.listener_fd,
    accepts := accepts, nread := 0, trace := [], flow := Flow.running }

/-! ## Observers on traces -/

/-- The descriptor registered with the backend by an action (`epoll_ctl(EPOLL_CTL_ADD)`
in the `EPOLL` variant, `FD_SET` on `fds_master` in the `select` variant). -/
def Act.registered : Act → Option Nat
  | .epoll_add fd => some fd
  | .fd_set fd => some fd
  | _ => none

/-- The descriptor an action hands to `on_accept`. -/
def Act.accepted : Act → Option Nat
  | .on_accept fd => some fd
  | _ => none

/-- The actions the embedding application and the peers can observe: the two callbacks
and `close`. -/
def Act.observable : Act → Bool
  | .on_accept _ => true
  | .read_handler _ => true
  | .close _ => true
  | _ => false

/-! ## Elementary steps of the `select` variant -/

/-- The property `P` of the state survives each elementary step the `select` variant
can take while it handles index `i` of its scan: the three outcomes of one round of the
accept-drain loop, and the two outcomes of a `read_handler` invocation. -/
structure SelectStable (c : Server) (i : Nat) (P : Select → Prop) : Prop where
  /-- No accept result is left. -/
  starve : ∀ s : Select, s.accepts = [] → P s →
    P { s with accepts := [], flow := Flow.starved }
  /-- The accept fails. -/
  fail : ∀ (s : Select) (e : Int) (rest : List AcceptRes), s.accepts = AcceptRes.fail e :: rest →
    P s →
    P { s with accepts := rest,
               trace := s.trace ++ (Act.accept_call :: (tcp_accept c.E (AcceptRes.fail e)).2 ++
                 if e = c.E.EAGAIN ∨ e = c.E.EWOULDBLOCK then [] else [Act.log "accept"]) }
  /-- The accept returns a descriptor. -/
  conn : ∀ (s : Select) (fd : Nat) (rest : List AcceptRes), s.accepts = AcceptRes.conn fd :: rest →
    P s →
    P { s with accepts := rest, fds_master := insert fd s.fds_master,
               fdmax := if fd > s.fdmax then fd else s.fdmax,
               trace := s.trace ++ ([Act.accept_call, Act.fd_set fd] ++
                 if c.has_on_accept then [Act.on_accept fd] else []) }
  /-- The handler returns 0. -/
  keep : ∀ s : Select, i ∈ s.fds_read → i ≠ c.listener_fd → c.read_handler s.nread i = 0 → P s →
    P { s with nread := s.nread + 1, trace := s.trace ++ [Act.read_handler i] }
  /-- The handler returns a non-zero value. -/
  drop : ∀ s : Select, i ∈ s.fds_read → i ≠ c.listener_fd → c.read_handler s.nread i ≠ 0 → P s →
    P { s with nread := s.nread + 1, fds_master := s.fds_master.erase i,
               trace := s.trace ++ [Act.read_handler i, Act.close i, Act.fd_clr i] }

/-- What holds of the state of the `select` variant all along its event loop: the
listener is registered and never closed; `fdmax` is the largest descriptor registered so
far, the listener included; every member of `fds_master` was registered; and every set
handed to `select` held the listener and lay below the bound given with it. -/
def SelectInv (c : Server) (s : Select) : Prop :=
  c.listener_fd ∈ s.fds_master ∧
  c.listener_fd ≤ s.fdmax ∧
  (∀ x ∈ s.fds_master, x = c.listener_fd ∨ Act.fd_set x ∈ s.trace) ∧
  (∀ fd, Act.fd_set fd ∈ s.trace → fd ≤ s.fdmax) ∧
  (s.fdmax = c.listener_fd ∨ Act.fd_set s.fdmax ∈ s.trace) ∧
  (∀ n fds, Act.select_call n fds ∈ s.trace → c.listener_fd ∈ fds ∧ ∀ x ∈ fds, x < n) ∧
  Act.close c.listener_fd ∉ s.trace

/-- An action that does not touch descriptor `F`: it is neither `read_handler(F)` nor
`close(F)`, nor a `select` call whose set holds `F`. -/
def Act.avoids (F : Nat) (a : Act) : Prop :=
  a ≠ Act.read_handler F ∧ a ≠ Act.close F ∧ ∀ n fds, a = Act.select_call n fds → F ∉ fds

/-- Descriptor `F` is out of the `select` variant's hands: it is not in `fds_master`, no
`accept4` to come returns it, whatever was done since the trace `t₀` avoids it, and the
ready set of the scan under way is `R`. -/
def SelectGone (F : Nat) (t₀ : List Act) (R : Finset Nat) (s : Select) : Prop :=
  s.fds_read = R ∧ F ∉ s.fds_master ∧ AcceptRes.conn F ∉ s.accepts ∧
    ∃ T, s.trace = t₀ ++ T ∧ ∀ a ∈ T, a.avoids F

/-- The two variants are at the same point: same accept results to come, same number of
`read_handler` invocations made, same flow, and since the traces `te` (`EPOLL`) and `ts`
(`select`) they performed the same observable actions in the same order. -/
def Agree (te ts : List Act) (e : Epoll) (s : Select) : Prop :=
  e.accepts = s.accepts ∧ e.nread = s.nread ∧ e.flow = s.flow ∧
    ∃ Te Ts, e.trace = te ++ Te ∧ s.trace = ts ++ Ts ∧
      Te.filter Act.observable = Ts.filter Act.observable

/-! ## Arithmetic helpers -/

theorem wrap32_of_range (x : Int) (h₁ : -2147483648 ≤ x) (h₂ : x ≤ 2147483647) :
    wrap32 x = x := by
  unfold wrap32
  omega

theorem sum_nonneg_of_pos (l : List Int) (h : ∀ d ∈ l, 0 < d) : 0 ≤ l.sum := by
  induction l with
  | nil => simp
  | cons a t ih =>
    have ha : 0 < a := h a (by simp)
    have ht : 0 ≤ t.sum := ih (fun d hd => h d (by simp [hd]))
    simp only [List.sum_cons]
    omega

/-! ## `tcp_read` -/

theorem tcp_read_loop_at_size (S : Int) (rest : List Int) :
    tcp_read_loop S rest S = some (S, rest) := by
  cases rest <;> simp [tcp_read_loop]

theorem tcp_read_loop_full (S : Int) (hmax : S ≤ INT_MAX) (ds rest : List Int) :
    ∀ total : Int, 0 ≤ total → (∀ d ∈ ds, 0 < d) → total + ds.sum = S →
      tcp_read_loop S (ds ++ rest) total = some (S, rest) := by
  unfold INT_MAX at hmax
  induction ds with
  | nil =>
    intro total _ _ hsum
    have : total = S := by simpa using hsum
    subst this
    simpa using tcp_read_loop_at_size total rest
  | cons d ds ih =>
    intro total h0 hpos hsum
    have hd : 0 < d := hpos d (by simp)
    have hds : ∀ x ∈ ds, 0 < x := fun x hx => hpos x (by simp [hx])
    have hnn := sum_nonneg_of_pos ds hds
    simp only [List.sum_cons] at hsum
    have hne : total ≠ S := by omega
    have hw : wrap32 (total + d) = total + d := wrap32_of_range _ (by omega) (by omega)
    have hnot : ¬ d ≤ 0 := by omega
    simp only [List.cons_append, tcp_read_loop, hne, ne_eq, not_false_eq_true, if_true, hnot,
      if_false, hw]
    exact ih (total + d) (by omega) hds (by omega)

theorem tcp_read_loop_short (S : Int) (hmax : S ≤ INT_MAX) (ds : List Int) (r : Int)
    (rest : List Int) (hr : r ≤ 0) :
    ∀ total : Int, 0 ≤ total → (∀ d ∈ ds, 0 < d) → total + ds.sum < S →
      tcp_read_loop S (ds ++ r :: rest) total = some (total + ds.sum, rest) := by
  unfold INT_MAX at hmax
  induction ds with
  | nil =>
    intro total _ _ hsum
    have hne : total ≠ S := by simp at hsum; omega
    simp [tcp_read_loop, hne, hr]
  | cons d ds ih =>
    intro total h0 hpos hsum
    have hd : 0 < d := hpos d (by simp)
    have hds : ∀ x ∈ ds, 0 < x := fun x hx => hpos x (by simp [hx])
    have hnn := sum_nonneg_of_pos ds hds
    simp only [List.sum_cons] at hsum
    have hne : total ≠ S := by omega
    have hw : wrap32 (total + d) = total + d := wrap32_of_range _ (by omega) (by omega)
    have hnot : ¬ d ≤ 0 := by omega
    simp only [List.cons_append, tcp_read_loop, hne, ne_eq, not_false_eq_true, if_true, hnot,
      if_false, hw, List.sum_cons]
    have h := ih (total + d) (by omega) hds (by omega)
    simpa [add_assoc] using h

/-- C1: for every size `S` of type `int` (the premises force `0 ≤ S`), if the stream delivers exactly `S` bytes in
positive deliveries then `tcp_read` returns `S` (calling `read` once per delivery and no
more); if it delivers `k < S` bytes in positive deliveries and the next `read` returns
0 or a negative value then `tcp_read` returns `k`. -/
theorem tcp_read_full_or_short (S : Int) (hmax : S ≤ INT_MAX) :
    (∀ ds rest : List Int, (∀ d ∈ ds, 0 < d) → ds.sum = S →
        tcp_read S (ds ++ rest) = some (S, rest)) ∧
    (∀ (ds : List Int) (r : Int) (rest : List Int), (∀ d ∈ ds, 0 < d) → ds.sum < S → r ≤ 0 →
        tcp_read S (ds ++ r :: rest) = some (ds.sum, rest)) := by
  refine ⟨fun ds rest hpos hsum => ?_, fun ds r rest hpos hsum hr => ?_⟩
  · exact tcp_read_loop_full S hmax ds rest 0 le_rfl hpos (by simpa using hsum)
  · have := tcp_read_loop_short S hmax ds r rest hr 0 le_rfl hpos (by simpa using hsum)
    simpa [tcp_read] using this

/-- Witness of C1 at `S = 5`: deliveries 2 and 3 give 5; delivery 2 followed by end of
stream gives 2. -/
theorem tcp_read_full_or_short_witness :
    (5 : Int) ≤ INT_MAX ∧
      tcp_read 5 ([2, 3] ++ [7]) = some (5, [7]) ∧
      tcp_read 5 ([2] ++ 0 :: [7]) = some (([2] : List Int).sum, [7]) :=
  ⟨by decide,
    (tcp_read_full_or_short 5 (by decide)).1 [2, 3] [7] (by decide) (by decide),
    (tcp_read_full_or_short 5 (by decide)).2 [2] 0 [7] (by decide) (by decide) (by decide)⟩

/-! ## `tcp_write` -/

theorem tcp_write_loop_at_size (S : Int) (rest : List Int) :
    tcp_write_loop S rest S = some (S, rest) := by
  cases rest <;> simp [tcp_write_loop]

theorem tcp_write_loop_full (S : Int) (hmax : S ≤ INT_MAX) (pre rest : List Int) :
    ∀ total : Int, 0 ≤ total → (∀ w ∈ pre, 0 < w) → total + pre.sum = S →
      tcp_write_loop S (pre ++ rest) total = some (S, rest) := by
  unfold INT_MAX at hmax
  induction pre with
  | nil =>
    intro total _ _ hsum
    have : total = S := by simpa using hsum
    subst this
    simpa using tcp_write_loop_at_size total rest
  | cons d ds ih =>
    intro total h0 hpos hsum
    have hd : 0 < d := hpos d (by simp)
    have hds : ∀ x ∈ ds, 0 < x := fun x hx => hpos x (by simp [hx])
    have hnn := sum_nonneg_of_pos ds hds
    simp only [List.sum_cons] at hsum
    have hne : total ≠ S := by omega
    have hw : wrap32 (total + d) = total + d := wrap32_of_range _ (by omega) (by omega)
    have h1 : ¬ d = 0 := by omega
    have h2 : ¬ d = -1 := by omega
    simp only [List.cons_append, tcp_write_loop, hne, ne_eq, not_false_eq_true, if_true, h1, h2,
      if_false, hw]
    exact ih (total + d) (by omega) hds (by omega)

theorem tcp_write_loop_stop (S : Int) (hmax : S ≤ INT_MAX) (pre : List Int) (w : Int)
    (rest : List Int) (hw0 : w = 0 ∨ w = -1) :
    ∀ total : Int, 0 ≤ total → (∀ x ∈ pre, 0 < x) → total + pre.sum < S →
      tcp_write_loop S (pre ++ w :: rest) total =
        some (if w = 0 then total + pre.sum else -1, rest) := by
  unfold INT_MAX at hmax
  induction pre with
  | nil =>
    intro total _ _ hsum
    have hne : total ≠ S := by simp at hsum; omega
    rcases hw0 with rfl | rfl <;> simp [tcp_write_loop, hne]
  | cons d ds ih =>
    intro total h0 hpos hsum
    have hd : 0 < d := hpos d (by simp)
    have hds : ∀ x ∈ ds, 0 < x := fun x hx => hpos x (by simp [hx])
    have hnn := sum_nonneg_of_pos ds hds
    simp only [List.sum_cons] at hsum
    have hne : total ≠ S := by omega
    have hw : wrap32 (total + d) = total + d := wrap32_of_range _ (by omega) (by omega)
    have h1 : ¬ d = 0 := by omega
    have h2 : ¬ d = -1 := by omega
    simp only [List.cons_append, tcp_write_loop, hne, ne_eq, not_false_eq_true, if_true, h1, h2,
      if_false, hw, List.sum_cons]
    have h := ih (total + d) (by omega) hds (by omega)
    simpa [add_assoc] using h

theorem tcp_write_loop_cases (S : Int) (hmax : S ≤ INT_MAX) (ws : List Int) :
    ∀ (total res : Int) (rest : List Int), 0 ≤ total → total ≤ S → validWrites S ws total →
      tcp_write_loop S ws total = some (res, rest) →
      res = S ∨ res = -1 ∨
        ∃ pre, ws = pre ++ 0 :: rest ∧ (∀ w ∈ pre, 0 < w) ∧ total + pre.sum = res := by
  unfold INT_MAX at hmax
  induction ws with
  | nil =>
    intro total res rest _ _ _ hrun
    by_cases hne : total = S
    · simp [tcp_write_loop, hne] at hrun
      exact Or.inl hrun.1.symm
    · simp [tcp_write_loop, hne] at hrun
  | cons w ws ih =>
    intro total res rest h0 hle hv hrun
    by_cases hne : total = S
    · simp [tcp_write_loop, hne] at hrun
      exact Or.inl hrun.1.symm
    · simp only [tcp_write_loop, ne_eq, hne, not_false_eq_true, if_true] at hrun
      by_cases h1 : w = 0
      · subst h1
        simp at hrun
        exact Or.inr (Or.inr ⟨[], by simp [hrun.2], by simp, by simpa using hrun.1⟩)
      · by_cases h2 : w = -1
        · subst h2
          simp at hrun
          exact Or.inr (Or.inl hrun.1.symm)
        · simp only [h1, h2, if_false] at hrun
          unfold validWrites at hv
          rcases hv with hv | hv | hv | ⟨hpos, hreq, hv⟩
          · exact absurd hv hne
          · exact absurd hv h2
          · exact absurd hv h1
          · have hw : wrap32 (total + w) = total + w :=
              wrap32_of_range _ (by omega) (by omega)
            rw [hw] at hrun
            rcases ih (total + w) res rest (by omega) (by omega) hv hrun with h | h | ⟨pre, e, hp, hs⟩
            · exact Or.inl h
            · exact Or.inr (Or.inl h)
            · refine Or.inr (Or.inr ⟨w :: pre, by simp [e], ?_, ?_⟩)
              · intro x hx
                rcases List.mem_cons.1 hx with rfl | hx
                · exact hpos
                · exact hp x hx
              · simp only [List.sum_cons]
                omega

/-- C2: for every size `S` of type `int` (the premises force `0 ≤ S`), over write
results that are -1, 0 or a positive count no larger than the count requested:
(1) if every write up to completion is positive, `tcp_write` returns `S`, however the
`S` bytes are split over the calls;
(2) as soon as a write returns -1 the result is -1, whatever was written before, and no
further write is made (the remaining results are left untouched);
(3) a write that returns 0 after `r < S` bytes makes the result `r`; and
(4) a result `0 ≤ r < S` arises only in that way. -/
theorem tcp_write_all_or_fail (S : Int) (hmax : S ≤ INT_MAX) :
    (∀ pre rest : List Int, (∀ w ∈ pre, 0 < w) → pre.sum = S →
        tcp_write S (pre ++ rest) = some (S, rest)) ∧
    (∀ pre rest : List Int, (∀ w ∈ pre, 0 < w) → pre.sum < S →
        tcp_write S (pre ++ -1 :: rest) = some (-1, rest)) ∧
    (∀ pre rest : List Int, (∀ w ∈ pre, 0 < w) → pre.sum < S →
        tcp_write S (pre ++ 0 :: rest) = some (pre.sum, rest)) ∧
    (∀ (ws : List Int) (r : Int) (rest : List Int), validWrites S ws 0 →
        tcp_write S ws = some (r, rest) → 0 ≤ r → r < S →
        ∃ pre, ws = pre ++ 0 :: rest ∧ (∀ w ∈ pre, 0 < w) ∧ pre.sum = r) := by
  refine ⟨fun pre rest hpos hsum => ?_, fun pre rest hpos hsum => ?_,
    fun pre rest hpos hsum => ?_, fun ws r rest hv hrun hr0 hrS => ?_⟩
  · exact tcp_write_loop_full S hmax pre rest 0 le_rfl hpos (by simpa using hsum)
  · have h := tcp_write_loop_stop S hmax pre (-1) rest (Or.inr rfl) 0 le_rfl hpos
      (by simpa using hsum)
    simpa [tcp_write] using h
  · have h := tcp_write_loop_stop S hmax pre 0 rest (Or.inl rfl) 0 le_rfl hpos
      (by simpa using hsum)
    simpa [tcp_write] using h
  · rcases tcp_write_loop_cases S hmax ws 0 r rest le_rfl (by omega) hv hrun with h | h | h
    · omega
    · omega
    · obtain ⟨pre, e, hp, hs⟩ := h
      exact ⟨pre, e, hp, by simpa using hs⟩

/-- Witness of C2 at `S = 5`: writes 2 and 3 give 5; a -1 after 2 bytes gives -1 and
leaves the next result unused; a 0 after 2 bytes gives 2, and the result 2 is explained
by that 0. -/
theorem tcp_write_all_or_fail_witness :
    (5 : Int) ≤ INT_MAX ∧
      tcp_write 5 ([2, 3] ++ [7]) = some (5, [7]) ∧
      tcp_write 5 ([2] ++ -1 :: [7]) = some (-1, [7]) ∧
      tcp_write 5 ([2] ++ 0 :: [7]) = some (([2] : List Int).sum, [7]) ∧
      (∃ pre : List Int, [2, 0, 7] = pre ++ 0 :: [7] ∧ (∀ w ∈ pre, 0 < w) ∧ pre.sum = 2) :=
  ⟨by decide,
    (tcp_write_all_or_fail 5 (by decide)).1 [2, 3] [7] (by decide) (by decide),
    (tcp_write_all_or_fail 5 (by decide)).2.1 [2] [7] (by decide) (by decide),
    (tcp_write_all_or_fail 5 (by decide)).2.2.1 [2] [7] (by decide) (by decide),
    (tcp_write_all_or_fail 5 (by decide)).2.2.2 [2, 0, 7] 2 [7]
      (by simp [validWrites]) (by decide) (by decide) (by decide)⟩

/-! ## `tcp_connect` -/

/-- C8, the code at the failing input: `getaddrinfo` fails (status -2), `socket` then
returns descriptor 5 and `connect` returns 0.  `tcp_connect` logs the failure, still
calls `socket` and `connect`, and returns the descriptor 5 instead of -1; the sibling
`tcp_create_listener` returns -1 right after the failed `getaddrinfo`. -/
theorem tcp_connect_resolution_failure_falls_through :
    tcp_connect ⟨-2, 5, 0, 0, 0, 0⟩ =
        (5, [Act.getaddrinfo, Act.log "getaddrinfo", Act.socket, Act.connect,
             Act.freeaddrinfo]) ∧
      tcp_create_listener ⟨-2, 5, 0, 0, 0, 0⟩ = (-1, [Act.getaddrinfo, Act.log "getaddrinfo"]) := by
  decide

/-! ## `tcp_accept` -/

/-- C9, counterexample: on Linux (`EAGAIN = EWOULDBLOCK = 11`) the condition is false
for `errno = 11`, and a would-block failure of `accept4` is not logged. -/
theorem accept_error_cond_not_tautology :
    accept_error_cond linuxErrno 11 = false ∧
      tcp_accept linuxErrno (AcceptRes.fail 11) = (-1, []) := by
  decide

/-- C9, amended: for every `errno` value the condition
`(errno != EAGAIN) || (errno != EWOULDBLOCK)` is false exactly when `errno` equals both
constants.  Where the two constants are the same number (Linux) it is true exactly when
`errno` differs from `EAGAIN`: a would-block failure is not logged, every other failed
accept is logged before `tcp_accept` returns -1.  Where they differ it is always true. -/
theorem accept_error_cond_spec (E : Errno) (errno : Int) :
    (accept_error_cond E errno = false ↔ (errno = E.EAGAIN ∧ errno = E.EWOULDBLOCK)) ∧
    (E.EAGAIN = E.EWOULDBLOCK →
      (accept_error_cond E errno = true ↔ errno ≠ E.EAGAIN) ∧
      tcp_accept E (AcceptRes.fail errno) =
        (-1, if errno = E.EAGAIN then [] else [Act.log "accept4"])) ∧
    (E.EAGAIN ≠ E.EWOULDBLOCK →
      accept_error_cond E errno = true ∧
      tcp_accept E (AcceptRes.fail errno) = (-1, [Act.log "accept4"])) := by
  refine ⟨?_, ?_, ?_⟩
  · simp [accept_error_cond]
  · intro h
    have hc : accept_error_cond E errno = true ↔ errno ≠ E.EAGAIN := by
      simp [accept_error_cond, ← h]
    refine ⟨hc, ?_⟩
    by_cases he : errno = E.EAGAIN
    · have : accept_error_cond E errno = false := by
        simp [accept_error_cond, ← h, he]
      rw [if_pos he]
      simp [tcp_accept, AcceptRes.ret, AcceptRes.errno, this]
    · have : accept_error_cond E errno = true := hc.2 he
      rw [if_neg he]
      simp [tcp_accept, AcceptRes.ret, AcceptRes.errno, this]
  · intro h
    have hc : accept_error_cond E errno = true := by
      simp only [accept_error_cond, Bool.or_eq_true, bne_iff_ne, ne_eq]
      by_cases he : errno = E.EAGAIN
      · right; rw [he]; exact h
      · left; exact he
    exact ⟨hc, by simp [tcp_accept, AcceptRes.ret, AcceptRes.errno, hc]⟩

/-- Witness of the amended C9 on Linux: `errno = 11` is not logged, `errno = 24`
(`EMFILE`) is. -/
theorem accept_error_cond_spec_witness :
    linuxErrno.EAGAIN = linuxErrno.EWOULDBLOCK ∧
      tcp_accept linuxErrno (AcceptRes.fail 11) =
        (-1, if (11 : Int) = linuxErrno.EAGAIN then [] else [Act.log "accept4"]) ∧
      tcp_accept linuxErrno (AcceptRes.fail 24) =
        (-1, if (24 : Int) = linuxErrno.EAGAIN then [] else [Act.log "accept4"]) :=
  ⟨rfl, ((accept_error_cond_spec linuxErrno 11).2.1 rfl).2,
    ((accept_error_cond_spec linuxErrno 24).2.1 rfl).2⟩

/-! ## The accept-drain sub-loop -/

theorem tcp_accept_conn (E : Errno) (fd : Nat) :
    tcp_accept E (AcceptRes.conn fd) = ((fd : Int), []) := by
  have h : ¬ ((fd : Int) = -1) := by omega
  simp [tcp_accept, AcceptRes.ret, h]

theorem tcp_accept_fail_fst (E : Errno) (e : Int) : (tcp_accept E (AcceptRes.fail e)).1 = -1 := by
  cases h : accept_error_cond E e <;> simp [tcp_accept, AcceptRes.ret, AcceptRes.errno, h]

/-- One successful accept of the `EPOLL` drain loop whose registration succeeds. -/
theorem epoll_drain_conn (c : Server) (fd : Nat) (rest : List AcceptRes) (s : Epoll)
    (hctl : c.epoll_ctl s.nctl fd ≠ -1) :
    epoll_drain c (AcceptRes.conn fd :: rest) s =
      epoll_drain c rest
        { s with accepts := rest, nctl := s.nctl + 1,
                 trace := s.trace ++ ([Act.accept_call, Act.epoll_add fd] ++
                   if c.has_on_accept then [Act.on_accept fd] else []) } := by
  have h : ¬ ((fd : Int) = -1) := by omega
  rw [epoll_drain]
  simp only [tcp_accept_conn, h, if_false, Int.toNat_ofNat, hctl]
  cases c.has_on_accept <;> simp

/-- A failed accept ends the `EPOLL` drain loop; the server keeps running. -/
theorem epoll_drain_fail (c : Server) (e : Int) (rest : List AcceptRes) (s : Epoll) :
    epoll_drain c (AcceptRes.fail e :: rest) s =
      { s with accepts := rest,
               trace := s.trace ++ (Act.accept_call :: (tcp_accept c.E (AcceptRes.fail e)).2 ++
                 if e = c.E.EAGAIN ∨ e = c.E.EWOULDBLOCK then [] else [Act.log "accept"]) } := by
  rw [epoll_drain]
  simp only [tcp_accept_fail_fst, if_true, AcceptRes.errno]
  split <;> simp

/-- One successful accept of the `select` drain loop. -/
theorem select_drain_conn (c : Server) (fd : Nat) (rest : List AcceptRes) (s : Select) :
    select_drain c (AcceptRes.conn fd :: rest) s =
      select_drain c rest
        { s with accepts := rest, fds_master := insert fd s.fds_master,
                 fdmax := if fd > s.fdmax then fd else s.fdmax,
                 trace := s.trace ++ ([Act.accept_call, Act.fd_set fd] ++
                   if c.has_on_accept then [Act.on_accept fd] else []) } := by
  have h : ¬ ((fd : Int) = -1) := by omega
  rw [select_drain]
  simp only [tcp_accept_conn, h, if_false, Int.toNat_ofNat]
  by_cases hm : fd > s.fdmax <;> cases c.has_on_accept <;> simp [hm]

/-- A failed accept ends the `select` drain loop; the server keeps running. -/
theorem select_drain_fail (c : Server) (e : Int) (rest : List AcceptRes) (s : Select) :
    select_drain c (AcceptRes.fail e :: rest) s =
      { s with accepts := rest,
               trace := s.trace ++ (Act.accept_call :: (tcp_accept c.E (AcceptRes.fail e)).2 ++
                 if e = c.E.EAGAIN ∨ e = c.E.EWOULDBLOCK then [] else [Act.log "accept"]) } := by
  rw [select_drain]
  simp only [tcp_accept_fail_fst, if_true, AcceptRes.errno]
  split <;> simp

/-- The `EPOLL` drain loop over `fds.length` successful accepts, each registered
successfully, followed by a failed accept. -/
theorem epoll_drain_run (c : Server) (e : Int) (rest : List AcceptRes) (fds : List Nat) :
    ∀ s : Epoll, (∀ k fd, fds[k]? = some fd → c.epoll_ctl (s.nctl + k) fd ≠ -1) →
      epoll_drain c (fds.map AcceptRes.conn ++ AcceptRes.fail e :: rest) s =
        { s with
          accepts := rest, nctl := s.nctl + fds.length,
          trace := s.trace ++
            ((fds.flatMap fun fd => [Act.accept_call, Act.epoll_add fd] ++
                if c.has_on_accept then [Act.on_accept fd] else []) ++
              (Act.accept_call :: (tcp_accept c.E (AcceptRes.fail e)).2 ++
                if e = c.E.EAGAIN ∨ e = c.E.EWOULDBLOCK then [] else [Act.log "accept"])) } := by
  induction fds with
  | nil => intro s _; simp [epoll_drain_fail]
  | cons fd fds ih =>
    intro s hctl
    have h0 : c.epoll_ctl s.nctl fd ≠ -1 := by simpa using hctl 0 fd (by simp)
    simp only [List.map_cons, List.cons_append]
    rw [epoll_drain_conn c fd _ s h0, ih]
    · simp [Nat.add_assoc, Nat.add_comm 1]
    · intro k x hk
      have := hctl (k + 1) x (by simpa using hk)
      simpa [Nat.add_assoc, Nat.add_comm 1] using this

/-- The `select` drain loop over `fds.length` successful accepts followed by a failed
accept. -/
theorem select_drain_run (c : Server) (e : Int) (rest : List AcceptRes) (fds : List Nat) :
    ∀ s : Select,
      select_drain c (fds.map AcceptRes.conn ++ AcceptRes.fail e :: rest) s =
        { s with
          accepts := rest,
          fds_master := fds.foldl (fun m fd => insert fd m) s.fds_master,
          fdmax := fds.foldl (fun m fd => if fd > m then fd else m) s.fdmax,
          trace := s.trace ++
            ((fds.flatMap fun fd => [Act.accept_call, Act.fd_set fd] ++
                if c.has_on_accept then [Act.on_accept fd] else []) ++
              (Act.accept_call :: (tcp_accept c.E (AcceptRes.fail e)).2 ++
                if e = c.E.EAGAIN ∨ e = c.E.EWOULDBLOCK then [] else [Act.log "accept"])) } := by
  induction fds with
  | nil => intro s; simp [select_drain_fail]
  | cons fd fds ih =>
    intro s
    simp only [List.map_cons, List.cons_append]
    rw [select_drain_conn c fd _ s, ih]
    simp

theorem foldl_insert_mem (fds : List Nat) :
    ∀ (m : Finset Nat) (x : Nat),
      x ∈ fds.foldl (fun m fd => insert fd m) m ↔ x ∈ m ∨ x ∈ fds := by
  induction fds with
  | nil => intro m x; simp
  | cons fd fds ih =>
    intro m x
    simp only [List.foldl_cons, ih, Finset.mem_insert, List.mem_cons]
    tauto

theorem tcp_accept_fail_logs (E : Errno) (e : Int) :
    (tcp_accept E (AcceptRes.fail e)).2 = [] ∨
      (tcp_accept E (AcceptRes.fail e)).2 = [Act.log "accept4"] := by
  cases h : accept_error_cond E e <;> simp [tcp_accept, AcceptRes.ret, AcceptRes.errno, h]

/-- Counting in the trace of a drain: `n` successful rounds and the final failed accept. -/
theorem drain_trace_counts (reg : Nat → Act) (hreg : ∀ fd, (reg fd).registered = some fd)
    (hacc : ∀ fd, (reg fd).accepted = none) (hne : ∀ fd, reg fd ≠ Act.accept_call)
    (logs : List Act) (hlogs : logs = [] ∨ logs = [Act.log "accept4"]) (fds : List Nat) :
    ((fds.flatMap fun fd => [Act.accept_call, reg fd, Act.on_accept fd]) ++
        Act.accept_call :: logs).count Act.accept_call = fds.length + 1 ∧
    ((fds.flatMap fun fd => [Act.accept_call, reg fd, Act.on_accept fd]) ++
        Act.accept_call :: logs).filterMap Act.registered = fds ∧
    ((fds.flatMap fun fd => [Act.accept_call, reg fd, Act.on_accept fd]) ++
        Act.accept_call :: logs).filterMap Act.accepted = fds := by
  induction fds with
  | nil =>
    rcases hlogs with rfl | rfl <;> simp [Act.registered, Act.accepted]
  | cons fd fds ih =>
    obtain ⟨h1, h2, h3⟩ := ih
    have hne' : ¬ (reg fd = Act.accept_call) := hne fd
    refine ⟨?_, ?_, ?_⟩
    · simp only [List.flatMap_cons, List.append_assoc, List.cons_append, List.nil_append,
        List.count_cons_self, List.count_cons_of_ne (Ne.symm (hne fd)), h1, List.length_cons]
      rw [List.count_cons_of_ne (by simp)]
      exact h1 ▸ rfl
    · have r1 : Act.registered Act.accept_call = none := rfl
      have r2 : Act.registered (Act.on_accept fd) = none := rfl
      simp only [List.flatMap_cons, List.append_assoc, List.cons_append, List.nil_append]
      simp only [List.filterMap_cons, r1, r2, hreg, h2]
    · have r1 : Act.accepted Act.accept_call = none := rfl
      have r2 : Act.accepted (Act.on_accept fd) = some fd := rfl
      simp only [List.flatMap_cons, List.append_assoc, List.cons_append, List.nil_append]
      simp only [List.filterMap_cons, r1, r2, hacc, h3]

/-- C3: accept-drain sub-loop of both variants, with `on_accept` non-null.  If at a
listener-ready event `accept4` yields the descriptors `fds` (`N = fds.length`) and then
fails with would-block, and (`EPOLL`) the `N` registrations succeed, then the sub-loop
performs exactly the actions `T`: for each descriptor in accept order an accept, its
registration and its `on_accept`, then the failing accept (with the log line of
`tcp_accept`, if any).  So accept is called `N + 1` times, the `N` descriptors are
registered and `on_accept` is invoked `N` times in accept order; the `N + 1` accept
results are consumed, the server keeps running and the loop goes on with the next event
(`EPOLL`) or the next index (`select`). -/
theorem accept_drain_until_would_block (c : Server) (hon : c.has_on_accept = true)
    (fds : List Nat) (e : Int) (he : e = c.E.EAGAIN ∨ e = c.E.EWOULDBLOCK)
    (rest : List AcceptRes) :
    (∀ (ev : EpollEvent) (es : List EpollEvent) (s : Epoll),
      ev.broken = false → ev.fd = c.listener_fd → s.flow = Flow.running →
      s.accepts = fds.map AcceptRes.conn ++ AcceptRes.fail e :: rest →
      (∀ k fd, fds[k]? = some fd → c.epoll_ctl (s.nctl + k) fd ≠ -1) →
      ∃ T : List Act,
        T = (fds.flatMap fun fd => [Act.accept_call, Act.epoll_add fd, Act.on_accept fd]) ++
              Act.accept_call :: (tcp_accept c.E (AcceptRes.fail e)).2 ∧
        (epoll_event c ev s).trace = s.trace ++ T ∧
        T.count Act.accept_call = fds.length + 1 ∧
        T.filterMap Act.registered = fds ∧
        T.filterMap Act.accepted = fds ∧
        (epoll_event c ev s).accepts = rest ∧
        (epoll_event c ev s).flow = Flow.running ∧
        epoll_events c (ev :: es) s = epoll_events c es (epoll_event c ev s)) ∧
    (∀ (i : Nat) (s : Select),
      i ∈ s.fds_read → i = c.listener_fd → i ≤ s.fdmax → s.flow = Flow.running →
      s.accepts = fds.map AcceptRes.conn ++ AcceptRes.fail e :: rest →
      ∃ T : List Act,
        T = (fds.flatMap fun fd => [Act.accept_call, Act.fd_set fd, Act.on_accept fd]) ++
              Act.accept_call :: (tcp_accept c.E (AcceptRes.fail e)).2 ∧
        (select_dispatch c i s).trace = s.trace ++ T ∧
        T.count Act.accept_call = fds.length + 1 ∧
        T.filterMap Act.registered = fds ∧
        T.filterMap Act.accepted = fds ∧
        (∀ x, x ∈ (select_dispatch c i s).fds_master ↔ x ∈ s.fds_master ∨ x ∈ fds) ∧
        (select_dispatch c i s).accepts = rest ∧
        (select_dispatch c i s).flow = Flow.running ∧
        select_scan c i s = select_scan c (i + 1) (select_dispatch c i s)) := by
  constructor
  · intro ev es s hb hfd hrun hacc hctl
    have hev : epoll_event c ev s =
        epoll_drain c (fds.map AcceptRes.conn ++ AcceptRes.fail e :: rest) s := by
      simp [epoll_event, hb, hfd, hacc]
    have hflow : (epoll_event c ev s).flow = Flow.running := by
      rw [hev, epoll_drain_run c e rest fds s hctl]; exact hrun
    obtain ⟨h1, h2, h3⟩ := drain_trace_counts Act.epoll_add (fun _ => rfl) (fun _ => rfl)
      (fun _ => by simp) _ (tcp_accept_fail_logs c.E e) fds
    refine ⟨_, rfl, ?_, h1, h2, h3, ?_, hflow, ?_⟩
    · rw [hev, epoll_drain_run c e rest fds s hctl]
      simp [hon, he]
    · rw [hev, epoll_drain_run c e rest fds s hctl]
    · simp [epoll_events, hflow]
  · intro i s hi hl hle hrun hacc
    have hd : select_dispatch c i s =
        select_drain c (fds.map AcceptRes.conn ++ AcceptRes.fail e :: rest) s := by
      have hi' : c.listener_fd ∈ s.fds_read := hl ▸ hi
      simp [select_dispatch, hi', hl, hacc]
    have hflow : (select_dispatch c i s).flow = Flow.running := by
      rw [hd, select_drain_run c e rest fds s]; exact hrun
    obtain ⟨h1, h2, h3⟩ := drain_trace_counts Act.fd_set (fun _ => rfl) (fun _ => rfl)
      (fun _ => by simp) _ (tcp_accept_fail_logs c.E e) fds
    refine ⟨_, rfl, ?_, h1, h2, h3, ?_, ?_, hflow, ?_⟩
    · rw [hd, select_drain_run c e rest fds s]
      simp [hon, he]
    · intro x
      rw [hd, select_drain_run c e rest fds s]
      exact foldl_insert_mem fds s.fds_master x
    · rw [hd, select_drain_run c e rest fds s]
    · rw [select_scan]
      simp [hle, hflow]

/-- Witness of C3: listener 3, two pending connections (descriptors 4 and 5) and then
would-block (`errno = 11` on Linux), in both variants. -/
theorem accept_drain_until_would_block_witness :
    (epoll_event ⟨linuxErrno, 3, true, fun _ _ => 0, fun _ _ => 0⟩ ⟨EPOLLIN, 3⟩
        (epoll_init [AcceptRes.conn 4, AcceptRes.conn 5, AcceptRes.fail 11])).trace =
      [Act.accept_call, Act.epoll_add 4, Act.on_accept 4,
       Act.accept_call, Act.epoll_add 5, Act.on_accept 5, Act.accept_call] ∧
    (select_dispatch ⟨linuxErrno, 3, true, fun _ _ => 0, fun _ _ => 0⟩ 3
        ⟨{3}, {3}, 3, [AcceptRes.conn 4, AcceptRes.conn 5, AcceptRes.fail 11], 0, [],
          Flow.running⟩).trace =
      [Act.accept_call, Act.fd_set 4, Act.on_accept 4,
       Act.accept_call, Act.fd_set 5, Act.on_accept 5, Act.accept_call] := by
  have h := accept_drain_until_would_block ⟨linuxErrno, 3, true, fun _ _ => 0, fun _ _ => 0⟩
    rfl [4, 5] 11 (Or.inl rfl) []
  constructor
  · obtain ⟨T, hT, htr, -⟩ := h.1 ⟨EPOLLIN, 3⟩ []
      (epoll_init [AcceptRes.conn 4, AcceptRes.conn 5, AcceptRes.fail 11])
      (by decide) rfl rfl rfl (by intro k fd _; simp)
    rw [htr, hT]
    decide
  · obtain ⟨T, hT, htr, -⟩ := h.2 3
      ⟨{3}, {3}, 3, [AcceptRes.conn 4, AcceptRes.conn 5, AcceptRes.fail 11], 0, [],
        Flow.running⟩ (by decide) rfl (by decide) rfl rfl
    rw [htr, hT]
    decide

/-! ## Induction principles for the `select` variant -/

theorem select_scan_eq (c : Server) (i : Nat) (s : Select) :
    select_scan c i s =
      if i ≤ s.fdmax then
        if (select_dispatch c i s).flow = Flow.running then
          select_scan c (i + 1) (select_dispatch c i s)
        else select_dispatch c i s
      else s := by
  rw [select_scan]

/-- Induction over the scan: a property of (index, state) that every dispatched index
carries to the next index holds, for some final index, when the scan is over; when the
scan ran to its end that index is beyond `fdmax`. -/
theorem select_scan_ind (c : Server) (P : Nat → Select → Prop)
    (hstep : ∀ i s, i ≤ s.fdmax → P i s → P (i + 1) (select_dispatch c i s)) :
    ∀ i s, P i s →
      ∃ j, i ≤ j ∧ P j (select_scan c i s) ∧
        ((select_scan c i s).flow = Flow.running → (select_scan c i s).fdmax < j) := by
  intro i s
  induction i, s using select_scan.induct c with
  | case1 i s hle s₁ hrun ih =>
    intro hP
    rw [select_scan_eq, if_pos hle, if_pos hrun]
    obtain ⟨j, hj, h⟩ := ih (hstep i s hle hP)
    exact ⟨j, by omega, h⟩
  | case2 i s hle s₁ hrun =>
    intro hP
    rw [select_scan_eq, if_pos hle, if_neg hrun]
    exact ⟨i + 1, by omega, hstep i s hle hP, fun h => absurd h hrun⟩
  | case3 i s hle =>
    intro hP
    rw [select_scan_eq, if_neg hle]
    exact ⟨i, le_rfl, hP, fun _ => by omega⟩

/-- Induction over the event loop: a property kept by a failing `select` and by a
successful `select` followed by the scan holds whatever the `select` results are. -/
theorem select_loop_ind (c : Server) (P : Select → Prop)
    (hfail : ∀ s, P s →
      P { s with fds_read := s.fds_master,
                 trace := s.trace ++ [Act.select_call (s.fdmax + 1) s.fds_master, Act.log "select"],
                 flow := Flow.exited })
    (hscan : ∀ s ready, P s →
      P (select_scan c 0
        { s with fds_read := select_result (s.fdmax + 1) s.fds_master ready,
                 trace := s.trace ++ [Act.select_call (s.fdmax + 1) s.fds_master] })) :
    ∀ bs s, P s → P (select_loop c bs s) := by
  intro bs
  induction bs with
  | nil => intro s h; simpa [select_loop] using h
  | cons b bs ih =>
    intro s h
    cases b with
    | none => simpa [select_loop] using hfail s h
    | some ready =>
      simp only [select_loop]
      split
      · exact ih _ (hscan s ready h)
      · exact hscan s ready h

/-- A property stable under the elementary steps survives the accept-drain loop. -/
theorem select_drain_ind (c : Server) (i : Nat) (P : Select → Prop) (h : SelectStable c i P) :
    ∀ (l : List AcceptRes) (s : Select), s.accepts = l → P s → P (select_drain c l s) := by
  intro l
  induction l with
  | nil => intro s hl hP; simpa [select_drain] using h.starve s hl hP
  | cons a rest ih =>
    intro s hl hP
    cases a with
    | conn fd =>
      rw [select_drain_conn]
      exact ih _ rfl (h.conn s fd rest hl hP)
    | fail e =>
      rw [select_drain_fail]
      exact h.fail s e rest hl hP

/-- A property stable under the elementary steps survives the body of the scan. -/
theorem select_dispatch_ind (c : Server) (i : Nat) (P : Select → Prop)
    (h : SelectStable c i P) (s : Select) (hP : P s) : P (select_dispatch c i s) := by
  unfold select_dispatch
  split
  · rename_i hi
    split
    · exact select_drain_ind c i P h _ s rfl hP
    · rename_i hl
      by_cases hr : c.read_handler s.nread i = 0
      · simpa [hr] using h.keep s hi hl hr hP
      · simpa [hr] using h.drop s hi hl hr hP
  · exact hP

/-! ## The invariant of the `select` variant -/

theorem SelectInv.bound {c : Server} {s : Select} (h : SelectInv c s) :
    ∀ x ∈ s.fds_master, x ≤ s.fdmax := by
  obtain ⟨-, h2, h3, h4, -⟩ := h
  intro x hx
  rcases h3 x hx with rfl | hx'
  · exact h2
  · exact h4 x hx'

theorem selectInv_init (c : Server) (accepts : List AcceptRes) :
    SelectInv c (select_init c accepts) := by
  simp [SelectInv, select_init]

theorem tcp_accept_fail_logs_mem (E : Errno) (e : Int) (a : Act)
    (ha : a ∈ (tcp_accept E (AcceptRes.fail e)).2) : a = Act.log "accept4" := by
  rcases tcp_accept_fail_logs E e with h | h
  · rw [h] at ha; simp at ha
  · rw [h] at ha; simpa using ha

/-- Every action of a failed accept round is the accept call or a log line. -/
theorem fail_round_mem (c : Server) (e : Int) (a : Act)
    (ha : a ∈ Act.accept_call :: (tcp_accept c.E (AcceptRes.fail e)).2 ++
      if e = c.E.EAGAIN ∨ e = c.E.EWOULDBLOCK then [] else [Act.log "accept"]) :
    a = Act.accept_call ∨ ∃ m, a = Act.log m := by
  simp only [List.cons_append, List.mem_cons, List.mem_append] at ha
  rcases ha with h | h | h
  · exact Or.inl h
  · exact Or.inr ⟨_, tcp_accept_fail_logs_mem c.E e a h⟩
  · split at h
    · simp at h
    · exact Or.inr ⟨_, by simpa using h⟩

/-- Every action of a successful accept round is the accept call, the registration or
the callback. -/
theorem conn_round_mem (c : Server) (fd : Nat) (a : Act)
    (ha : a ∈ [Act.accept_call, Act.fd_set fd] ++
      if c.has_on_accept then [Act.on_accept fd] else []) :
    a = Act.accept_call ∨ a = Act.fd_set fd ∨ a = Act.on_accept fd := by
  cases h : c.has_on_accept <;> simp [h] at ha <;> tauto

theorem selectInv_stable (c : Server) (i : Nat) : SelectStable c i (SelectInv c) where
  starve := by
    intro s _ h
    exact h
  fail := by
    rintro s e rest - ⟨h1, h2, h3, h4, h5, h6, h7⟩
    have hm := fail_round_mem c e
    refine ⟨h1, h2, ?_, ?_, ?_, ?_, ?_⟩
    · intro x hx
      rcases h3 x hx with h | h
      · exact Or.inl h
      · exact Or.inr (List.mem_append_left _ h)
    · intro fd hfd
      rcases List.mem_append.1 hfd with h | h
      · exact h4 fd h
      · rcases hm _ h with h | ⟨m, h⟩ <;> cases h
    · rcases h5 with h | h
      · exact Or.inl h
      · exact Or.inr (List.mem_append_left _ h)
    · intro n fds hfd
      rcases List.mem_append.1 hfd with h | h
      · exact h6 n fds h
      · rcases hm _ h with h | ⟨m, h⟩ <;> cases h
    · intro hfd
      rcases List.mem_append.1 hfd with h | h
      · exact h7 h
      · rcases hm _ h with h | ⟨m, h⟩ <;> cases h
  conn := by
    rintro s fd rest - ⟨h1, h2, h3, h4, h5, h6, h7⟩
    have hm := conn_round_mem c fd
    have hin : Act.fd_set fd ∈ s.trace ++ ([Act.accept_call, Act.fd_set fd] ++
        if c.has_on_accept then [Act.on_accept fd] else []) := by simp
    refine ⟨Finset.mem_insert_of_mem h1, ?_, ?_, ?_, ?_, ?_, ?_⟩
    · show c.listener_fd ≤ if fd > s.fdmax then fd else s.fdmax
      split <;> omega
    · intro x hx
      rcases Finset.mem_insert.1 hx with rfl | hx
      · exact Or.inr hin
      · rcases h3 x hx with h | h
        · exact Or.inl h
        · exact Or.inr (List.mem_append_left _ h)
    · intro x hx
      show x ≤ if fd > s.fdmax then fd else s.fdmax
      rcases List.mem_append.1 hx with h | h
      · have := h4 x h
        split <;> omega
      · rcases hm _ h with h | h | h <;> cases h
        split <;> omega
    · show (if fd > s.fdmax then fd else s.fdmax) = c.listener_fd ∨
        Act.fd_set (if fd > s.fdmax then fd else s.fdmax) ∈ _
      by_cases hgt : fd > s.fdmax
      · rw [if_pos hgt]; exact Or.inr hin
      · rw [if_neg hgt]
        rcases h5 with h | h
        · exact Or.inl h
        · exact Or.inr (List.mem_append_left _ h)
    · intro n fds hfd
      rcases List.mem_append.1 hfd with h | h
      · exact h6 n fds h
      · rcases hm _ h with h | h | h <;> cases h
    · intro hfd
      rcases List.mem_append.1 hfd with h | h
      · exact h7 h
      · rcases hm _ h with h | h | h <;> cases h
  keep := by
    rintro s - hl - ⟨h1, h2, h3, h4, h5, h6, h7⟩
    refine ⟨h1, h2, ?_, ?_, ?_, ?_, ?_⟩
    · intro x hx
      rcases h3 x hx with h | h
      · exact Or.inl h
      · exact Or.inr (List.mem_append_left _ h)
    · intro fd hfd
      rcases List.mem_append.1 hfd with h | h
      · exact h4 fd h
      · simp at h
    · rcases h5 with h | h
      · exact Or.inl h
      · exact Or.inr (List.mem_append_left _ h)
    · intro n fds hfd
      rcases List.mem_append.1 hfd with h | h
      · exact h6 n fds h
      · simp at h
    · intro hfd
      rcases List.mem_append.1 hfd with h | h
      · exact h7 h
      · simp at h
  drop := by
    rintro s - hl - ⟨h1, h2, h3, h4, h5, h6, h7⟩
    refine ⟨Finset.mem_erase.2 ⟨Ne.symm hl, h1⟩, h2, ?_, ?_, ?_, ?_, ?_⟩
    · intro x hx
      rcases h3 x (Finset.mem_of_mem_erase hx) with h | h
      · exact Or.inl h
      · exact Or.inr (List.mem_append_left _ h)
    · intro fd hfd
      rcases List.mem_append.1 hfd with h | h
      · exact h4 fd h
      · simp at h
    · rcases h5 with h | h
      · exact Or.inl h
      · exact Or.inr (List.mem_append_left _ h)
    · intro n fds hfd
      rcases List.mem_append.1 hfd with h | h
      · exact h6 n fds h
      · simp at h
    · intro hfd
      rcases List.mem_append.1 hfd with h | h
      · exact h7 h
      · simp at h
        exact hl h.symm

theorem selectInv_dispatch (c : Server) (i : Nat) (s : Select) (h : SelectInv c s) :
    SelectInv c (select_dispatch c i s) :=
  select_dispatch_ind c i _ (selectInv_stable c i) s h

theorem selectInv_scan (c : Server) (i : Nat) (s : Select) (h : SelectInv c s) :
    SelectInv c (select_scan c i s) := by
  obtain ⟨j, -, hj, -⟩ :=
    select_scan_ind c (fun _ s => SelectInv c s) (fun i s _ h => selectInv_dispatch c i s h) i s h
  exact hj

/-- The invariant survives the call of `select`, whether it fails or not: the set handed
in holds the listener and lies below `fdmax + 1`. -/
theorem selectInv_wait (c : Server) (s : Select) (h : SelectInv c s) (fr : Finset Nat)
    (logs : List Act) (hlogs : ∀ a ∈ logs, ∃ m, a = Act.log m) (fl : Flow) :
    SelectInv c { s with fds_read := fr,
                         trace := s.trace ++ Act.select_call (s.fdmax + 1) s.fds_master :: logs,
                         flow := fl } := by
  have hb := h.bound
  obtain ⟨h1, h2, h3, h4, h5, h6, h7⟩ := h
  refine ⟨h1, h2, ?_, ?_, ?_, ?_, ?_⟩
  · intro x hx
    rcases h3 x hx with h | h
    · exact Or.inl h
    · exact Or.inr (List.mem_append_left _ h)
  · intro fd hfd
    rcases List.mem_append.1 hfd with h | h
    · exact h4 fd h
    · rcases List.mem_cons.1 h with h | h
      · cases h
      · obtain ⟨m, hm⟩ := hlogs _ h
        cases hm
  · rcases h5 with h | h
    · exact Or.inl h
    · exact Or.inr (List.mem_append_left _ h)
  · intro n fds hfd
    rcases List.mem_append.1 hfd with h | h
    · exact h6 n fds h
    · rcases List.mem_cons.1 h with h | h
      · cases h
        exact ⟨h1, fun x hx => Nat.lt_succ_of_le (hb x hx)⟩
      · obtain ⟨m, hm⟩ := hlogs _ h
        cases hm
  · intro hfd
    rcases List.mem_append.1 hfd with h | h
    · exact h7 h
    · rcases List.mem_cons.1 h with h | h
      · cases h
      · obtain ⟨m, hm⟩ := hlogs _ h
        cases hm

theorem selectInv_loop (c : Server) (bs : List (Option (Finset Nat))) (s : Select)
    (h : SelectInv c s) : SelectInv c (select_loop c bs s) := by
  refine select_loop_ind c (SelectInv c) ?_ ?_ bs s h
  · intro s h
    exact selectInv_wait c s h _ [Act.log "select"] (by simp) _
  · intro s ready h
    apply selectInv_scan
    exact selectInv_wait c s h _ [] (by simp) _

/-! ## A descriptor closed on the handler's request -/

theorem SelectGone.grow {F : Nat} {t₀ : List Act} {R : Finset Nat} {s : Select}
    (h : SelectGone F t₀ R s) (s' : Select) (T' : List Act) {R' : Finset Nat}
    (hr : s'.fds_read = R') (hm : F ∉ s'.fds_master) (ha : AcceptRes.conn F ∉ s'.accepts)
    (ht : s'.trace = s.trace ++ T') (hT : ∀ a ∈ T', a.avoids F) : SelectGone F t₀ R' s' := by
  obtain ⟨-, -, -, T, hT0, hav⟩ := h
  refine ⟨hr, hm, ha, T ++ T', by rw [ht, hT0, List.append_assoc], ?_⟩
  intro a ha'
  rcases List.mem_append.1 ha' with h | h
  · exact hav a h
  · exact hT a h

theorem selectGone_stable (c : Server) (F : Nat) (t₀ : List Act) (R : Finset Nat) (i : Nat)
    (hi : i ≠ F) : SelectStable c i (SelectGone F t₀ R) where
  starve := by
    intro s _ h
    exact h.grow _ [] h.1 h.2.1 (by simp) (by simp) (by simp)
  fail := by
    intro s e rest hl h
    refine h.grow _ _ h.1 h.2.1 ?_ rfl ?_
    · intro hmem
      exact h.2.2.1 (by rw [hl]; exact List.mem_cons_of_mem _ hmem)
    · intro a ha
      rcases fail_round_mem c e a ha with rfl | ⟨m, rfl⟩ <;> simp [Act.avoids]
  conn := by
    intro s fd rest hl h
    have hne : fd ≠ F := by
      rintro rfl
      exact h.2.2.1 (by rw [hl]; exact List.mem_cons_self _ _)
    refine h.grow _ _ h.1 ?_ ?_ rfl ?_
    · intro hmem
      rcases Finset.mem_insert.1 hmem with h' | h'
      · exact hne h'.symm
      · exact h.2.1 h'
    · intro hmem
      exact h.2.2.1 (by rw [hl]; exact List.mem_cons_of_mem _ hmem)
    · intro a ha
      rcases conn_round_mem c fd a ha with rfl | rfl | rfl <;> simp [Act.avoids]
  keep := by
    intro s _ _ _ h
    refine h.grow _ _ h.1 h.2.1 h.2.2.1 rfl ?_
    intro a ha
    have : a = Act.read_handler i := by simpa using ha
    subst this
    simp [Act.avoids, hi]
  drop := by
    intro s _ _ _ h
    refine h.grow _ _ h.1 ?_ h.2.2.1 rfl ?_
    · intro hmem
      exact h.2.1 (Finset.mem_of_mem_erase hmem)
    · intro a ha
      have : a = Act.read_handler i ∨ a = Act.close i ∨ a = Act.fd_clr i := by simpa using ha
      rcases this with rfl | rfl | rfl <;> simp [Act.avoids, hi]

theorem selectGone_scan (c : Server) (F : Nat) (t₀ : List Act) (i : Nat) (s : Select)
    (hF : F ∈ s.fds_read → F < i) (h : SelectGone F t₀ s.fds_read s) :
    SelectGone F t₀ s.fds_read (select_scan c i s) := by
  have hstep : ∀ j s', j ≤ s'.fdmax →
      ((F ∈ s.fds_read → F < j) ∧ SelectGone F t₀ s.fds_read s') →
      ((F ∈ s.fds_read → F < j + 1) ∧
        SelectGone F t₀ s.fds_read (select_dispatch c j s')) := by
    rintro j s' - ⟨h1, h2⟩
    refine ⟨fun hm => Nat.lt_succ_of_lt (h1 hm), ?_⟩
    by_cases hjF : j = F
    · have hnot : j ∉ s'.fds_read := by
        rw [h2.1, hjF]
        intro hm
        have := h1 hm
        omega
      simpa [select_dispatch, hnot] using h2
    · exact select_dispatch_ind c j _ (selectGone_stable c F t₀ s.fds_read j hjF) s' h2
  obtain ⟨j, -, hj, -⟩ := select_scan_ind c
    (fun j s' => (F ∈ s.fds_read → F < j) ∧ SelectGone F t₀ s.fds_read s') hstep i s ⟨hF, h⟩
  exact hj.2

theorem selectGone_loop (c : Server) (F : Nat) (t₀ : List Act)
    (bs : List (Option (Finset Nat))) (s : Select)
    (h : ∃ R, SelectGone F t₀ R s) : ∃ R, SelectGone F t₀ R (select_loop c bs s) := by
  refine select_loop_ind c (fun s => ∃ R, SelectGone F t₀ R s) ?_ ?_ bs s h
  · rintro s ⟨R, h⟩
    refine ⟨_, h.grow _ _ rfl h.2.1 h.2.2.1 rfl ?_⟩
    intro a ha
    have : a = Act.select_call (s.fdmax + 1) s.fds_master ∨ a = Act.log "select" := by
      simpa using ha
    rcases this with rfl | rfl
    · refine ⟨by simp, by simp, ?_⟩
      intro n fds he
      cases he
      exact h.2.1
    · simp [Act.avoids]
  · rintro s ready ⟨R, h⟩
    have hnot : F ∉ select_result (s.fdmax + 1) s.fds_master ready := by
      intro hm
      exact h.2.1 (Finset.mem_filter.1 hm).1
    refine ⟨_, selectGone_scan c F t₀ 0 _ (fun hm => absurd hm hnot) ?_⟩
    refine h.grow _ [Act.select_call (s.fdmax + 1) s.fds_master] rfl h.2.1 h.2.2.1 rfl ?_
    intro a ha
    have : a = Act.select_call (s.fdmax + 1) s.fds_master := by simpa using ha
    subst this
    refine ⟨by simp, by simp, ?_⟩
    intro n fds he
    cases he
    exact h.2.1

/-- C4: handler-signalled close, for a ready descriptor `F` other than the listener.
`EPOLL` variant: when `read_handler(F)` returns non-zero the event adds exactly
`read_handler(F)`, `close(F)` to the trace; when it returns 0, only `read_handler(F)`.
`select` variant: when it returns non-zero the index adds `read_handler(F)`, `close(F)`,
`FD_CLR(F)` and `F` leaves `fds_master`; when it returns 0 only `read_handler(F)` is
added and `fds_master` is unchanged.  After such a close, and as long as no later accept
returns `F`, the rest of the scan (from index `F + 1`) and all later batches `bs`
(`bs = []`: the end of the scan under way) never hand `F` to `select`, never invoke
`read_handler(F)` and never call `close(F)` again, and `F` stays out of `fds_master`. -/
theorem handler_signalled_close (c : Server) (F : Nat) (hF : F ≠ c.listener_fd) :
    (∀ (ev : EpollEvent) (s : Epoll), ev.fd = F → ev.broken = false →
      (c.read_handler s.nread F ≠ 0 →
        epoll_event c ev s =
          { s with nread := s.nread + 1,
                   trace := s.trace ++ [Act.read_handler F, Act.close F] }) ∧
      (c.read_handler s.nread F = 0 →
        epoll_event c ev s =
          { s with nread := s.nread + 1, trace := s.trace ++ [Act.read_handler F] })) ∧
    (∀ s : Select, F ∈ s.fds_read →
      (c.read_handler s.nread F ≠ 0 →
        select_dispatch c F s =
          { s with nread := s.nread + 1, fds_master := s.fds_master.erase F,
                   trace := s.trace ++ [Act.read_handler F, Act.close F, Act.fd_clr F] }) ∧
      (c.read_handler s.nread F = 0 →
        select_dispatch c F s =
          { s with nread := s.nread + 1, trace := s.trace ++ [Act.read_handler F] })) ∧
    (∀ (s : Select) (bs : List (Option (Finset Nat))), F ∈ s.fds_read →
      c.read_handler s.nread F ≠ 0 → AcceptRes.conn F ∉ s.accepts →
      ∃ T : List Act,
        (select_loop c bs (select_scan c (F + 1) (select_dispatch c F s))).trace =
          s.trace ++ [Act.read_handler F, Act.close F, Act.fd_clr F] ++ T ∧
        (∀ a ∈ T, a.avoids F) ∧
        F ∉ (select_loop c bs (select_scan c (F + 1) (select_dispatch c F s))).fds_master) := by
  have hsel : ∀ s : Select, F ∈ s.fds_read →
      (c.read_handler s.nread F ≠ 0 →
        select_dispatch c F s =
          { s with nread := s.nread + 1, fds_master := s.fds_master.erase F,
                   trace := s.trace ++ [Act.read_handler F, Act.close F, Act.fd_clr F] }) ∧
      (c.read_handler s.nread F = 0 →
        select_dispatch c F s =
          { s with nread := s.nread + 1, trace := s.trace ++ [Act.read_handler F] }) := by
    intro s hin
    constructor
    · intro hr
      simp [select_dispatch, hin, hF, hr]
    · intro hr
      simp [select_dispatch, hin, hF, hr]
  refine ⟨?_, hsel, ?_⟩
  · intro ev s hfd hb
    subst hfd
    have hl : ¬ c.listener_fd = ev.fd := Ne.symm hF
    constructor
    · intro hr
      simp [epoll_event, hb, hl, hr]
    · intro hr
      simp [epoll_event, hb, hl, hr]
  · intro s bs hin hr hacc
    have hd := (hsel s hin).1 hr
    have h0 : SelectGone F (s.trace ++ [Act.read_handler F, Act.close F, Act.fd_clr F])
        (select_dispatch c F s).fds_read (select_dispatch c F s) := by
      rw [hd]
      exact ⟨rfl, by simp, hacc, [], by simp, by simp⟩
    have h1 := selectGone_scan c F _ (F + 1) _ (fun _ => Nat.lt_succ_self F) h0
    obtain ⟨R, -, hm, -, T, hT, hav⟩ := selectGone_loop c F _ bs _ ⟨_, h1⟩
    exact ⟨T, hT, hav, hm⟩

/-- Witness of C4: listener 3, descriptor 4 ready, the handler returns 1.  Both variants
close 4; the `select` variant then handles two more batches, in which 4 is reported
ready again, without touching 4. -/
theorem handler_signalled_close_witness :
    (4 : Nat) ≠ 3 ∧
    epoll_event ⟨linuxErrno, 3, true, fun _ _ => 1, fun _ _ => 0⟩ ⟨EPOLLIN, 4⟩
        (epoll_init []) =
      { epoll_init [] with nread := 1, trace := [Act.read_handler 4, Act.close 4] } ∧
    ∃ T : List Act,
      (select_loop ⟨linuxErrno, 3, true, fun _ _ => 1, fun _ _ => 0⟩ [some {4}, some {3, 4}]
        (select_scan ⟨linuxErrno, 3, true, fun _ _ => 1, fun _ _ => 0⟩ (4 + 1)
          (select_dispatch ⟨linuxErrno, 3, true, fun _ _ => 1, fun _ _ => 0⟩ 4
            ⟨{3, 4}, {4}, 4, [AcceptRes.fail 11], 0, [], Flow.running⟩))).trace =
        [] ++ [Act.read_handler 4, Act.close 4, Act.fd_clr 4] ++ T ∧
      (∀ a ∈ T, a.avoids 4) := by
  have h := handler_signalled_close ⟨linuxErrno, 3, true, fun _ _ => 1, fun _ _ => 0⟩ 4
    (by decide)
  refine ⟨by decide, ?_, ?_⟩
  · exact (h.1 ⟨EPOLLIN, 4⟩ (epoll_init []) rfl (by decide)).1 (by decide)
  · obtain ⟨T, hT, hav, -⟩ := h.2.2
      ⟨{3, 4}, {4}, 4, [AcceptRes.fail 11], 0, [], Flow.running⟩ [some {4}, some {3, 4}]
      (by decide) (by decide) (by decide)
    exact ⟨T, hT, hav⟩

/-! ## The listener -/

/-- The accept-drain loop of the `EPOLL` variant only appends accept calls, log lines,
registrations and `on_accept` invocations. -/
theorem epoll_drain_trace (c : Server) (l : List AcceptRes) :
    ∀ s : Epoll, ∃ T, (epoll_drain c l s).trace = s.trace ++ T ∧
      ∀ a ∈ T, a = Act.accept_call ∨ (∃ m, a = Act.log m) ∨ (∃ fd, a = Act.epoll_add fd) ∨
        ∃ fd, a = Act.on_accept fd := by
  induction l with
  | nil => intro s; exact ⟨[], by simp [epoll_drain], by simp⟩
  | cons a rest ih =>
    intro s
    cases a with
    | fail e =>
      rw [epoll_drain_fail]
      refine ⟨_, rfl, ?_⟩
      intro a ha
      rcases fail_round_mem c e a ha with h | h
      · exact Or.inl h
      · exact Or.inr (Or.inl h)
    | conn fd =>
      by_cases hctl : c.epoll_ctl s.nctl fd = -1
      · have h : ¬ ((fd : Int) = -1) := by omega
        rw [epoll_drain]
        simp only [tcp_accept_conn, h, if_false, Int.toNat_ofNat, hctl, if_true]
        exact ⟨[Act.accept_call, Act.epoll_add fd, Act.log "epoll_ctl"], by simp, by simp⟩
      · rw [epoll_drain_conn c fd rest s hctl]
        obtain ⟨T, hT, hQ⟩ := ih
          { s with accepts := rest, nctl := s.nctl + 1,
                   trace := s.trace ++ ([Act.accept_call, Act.epoll_add fd] ++
                     if c.has_on_accept then [Act.on_accept fd] else []) }
        refine ⟨([Act.accept_call, Act.epoll_add fd] ++
          if c.has_on_accept then [Act.on_accept fd] else []) ++ T, ?_, ?_⟩
        · rw [hT]
          simp
        · intro a ha
          rcases List.mem_append.1 ha with h | h
          · cases hon : c.has_on_accept
            · have : a = Act.accept_call ∨ a = Act.epoll_add fd := by simpa [hon] using h
              rcases this with rfl | rfl <;> simp
            · have : a = Act.accept_call ∨ a = Act.epoll_add fd ∨ a = Act.on_accept fd := by
                simpa [hon] using h
              rcases this with rfl | rfl | rfl <;> simp
          · exact hQ a h

/-- One event of the `EPOLL` variant does not close the listener unless it is an event
on the listener that signals error, hangup or not-readable. -/
theorem epoll_event_keeps_listener (c : Server) (ev : EpollEvent) (s : Epoll)
    (hev : ev.fd = c.listener_fd → ev.broken = false)
    (h : Act.close c.listener_fd ∉ s.trace) :
    Act.close c.listener_fd ∉ (epoll_event c ev s).trace := by
  unfold epoll_event
  split
  · rename_i hb
    have hne : ev.fd ≠ c.listener_fd := fun he => by simp [hev he] at hb
    simpa [h] using Ne.symm hne
  · split
    · obtain ⟨T, hT, hQ⟩ := epoll_drain_trace c s.accepts s
      rw [hT]
      intro hm
      rcases List.mem_append.1 hm with hm | hm
      · exact h hm
      · rcases hQ _ hm with h' | ⟨m, h'⟩ | ⟨fd, h'⟩ | ⟨fd, h'⟩ <;> cases h'
    · rename_i hl
      simp only []
      split <;> simp [h, hl]

theorem epoll_events_keep_listener (c : Server) (evs : List EpollEvent) :
    ∀ s : Epoll, (∀ ev ∈ evs, ev.fd = c.listener_fd → ev.broken = false) →
      Act.close c.listener_fd ∉ s.trace →
      Act.close c.listener_fd ∉ (epoll_events c evs s).trace := by
  induction evs with
  | nil => intro s _ h; simpa [epoll_events] using h
  | cons ev evs ih =>
    intro s hev h
    have h1 := epoll_event_keeps_listener c ev s (hev ev (by simp)) h
    simp only [epoll_events]
    split
    · exact ih _ (fun e he => hev e (by simp [he])) h1
    · exact h1

theorem epoll_loop_keeps_listener (c : Server) (bs : List (Option (List EpollEvent))) :
    ∀ s : Epoll, (∀ evs, some evs ∈ bs → ∀ ev ∈ evs, ev.fd = c.listener_fd → ev.broken = false) →
      Act.close c.listener_fd ∉ s.trace →
      Act.close c.listener_fd ∉ (epoll_loop c bs s).trace := by
  induction bs with
  | nil => intro s _ h; simpa [epoll_loop] using h
  | cons b bs ih =>
    intro s hev h
    cases b with
    | none => simpa [epoll_loop] using h
    | some evs =>
      have h1 := epoll_events_keep_listener c evs
        { s with trace := s.trace ++ [Act.epoll_wait] } (hev evs (by simp)) (by simpa using h)
      simp only [epoll_loop]
      split
      · exact ih _ (fun e he => hev e (by simp [he])) h1
      · exact h1

/-- C5, counterexample: `EPOLL` variant, listener 3; `epoll_wait` reports an event on
descriptor 3 with `EPOLLERR` set.  The first branch of the loop closes the listener and
the loop keeps running. -/
theorem epoll_closes_listener_on_error :
    (epoll_loop ⟨linuxErrno, 3, true, fun _ _ => 0, fun _ _ => 0⟩
        [some [⟨EPOLLERR, 3⟩]] (epoll_init [])).trace = [Act.epoll_wait, Act.close 3] ∧
    (epoll_loop ⟨linuxErrno, 3, true, fun _ _ => 0, fun _ _ => 0⟩
        [some [⟨EPOLLERR, 3⟩]] (epoll_init [])).flow = Flow.running := by
  decide

/-- C5, amended.  `select` variant: whatever the `select` results and the accept
results are, the listener is in `fds_master` (at the top of every iteration), it was in
every set handed to `select`, and `close` was never called on it.  `EPOLL` variant: as
long as no event reported for the listener signals error, hangup or not-readable,
`close` is never called on the listener; an event on the listener that does signal one
of these makes the loop close it. -/
theorem listener_lifetime (c : Server) (accepts : List AcceptRes) :
    (∀ bs : List (Option (Finset Nat)),
      c.listener_fd ∈ (select_loop c bs (select_init c accepts)).fds_master ∧
      (∀ n fds, Act.select_call n fds ∈ (select_loop c bs (select_init c accepts)).trace →
        c.listener_fd ∈ fds) ∧
      Act.close c.listener_fd ∉ (select_loop c bs (select_init c accepts)).trace) ∧
    (∀ bs : List (Option (List EpollEvent)),
      (∀ evs, some evs ∈ bs → ∀ ev ∈ evs, ev.fd = c.listener_fd → ev.broken = false) →
      Act.close c.listener_fd ∉ (epoll_loop c bs (epoll_init accepts)).trace) ∧
    (∀ (ev : EpollEvent) (s : Epoll), ev.fd = c.listener_fd → ev.broken = true →
      epoll_event c ev s = { s with trace := s.trace ++ [Act.close c.listener_fd] }) := by
  refine ⟨?_, ?_, ?_⟩
  · intro bs
    obtain ⟨h1, -, -, -, -, h6, h7⟩ := selectInv_loop c bs _ (selectInv_init c accepts)
    exact ⟨h1, fun n fds h => (h6 n fds h).1, h7⟩
  · intro bs hev
    exact epoll_loop_keeps_listener c bs _ hev (by simp [epoll_init])
  · intro ev s hfd hb
    simp [epoll_event, hb, hfd]

/-- Witness of the amended C5: listener 3; the `select` variant over two batches, the
`EPOLL` variant over a batch with a readable listener and a hangup on descriptor 4. -/
theorem listener_lifetime_witness :
    (3 : Nat) ∈ (select_loop ⟨linuxErrno, 3, true, fun _ _ => 1, fun _ _ => 0⟩
        [some {3}, some {3, 4}] (select_init ⟨linuxErrno, 3, true, fun _ _ => 1, fun _ _ => 0⟩
          [AcceptRes.conn 4, AcceptRes.fail 11])).fds_master ∧
    Act.close 3 ∉ (epoll_loop ⟨linuxErrno, 3, true, fun _ _ => 1, fun _ _ => 0⟩
        [some [⟨EPOLLIN, 3⟩, ⟨EPOLLHUP, 4⟩]]
        (epoll_init [AcceptRes.conn 4, AcceptRes.fail 11])).trace :=
  ⟨((listener_lifetime ⟨linuxErrno, 3, true, fun _ _ => 1, fun _ _ => 0⟩
        [AcceptRes.conn 4, AcceptRes.fail 11]).1 [some {3}, some {3, 4}]).1,
   (listener_lifetime ⟨linuxErrno, 3, true, fun _ _ => 1, fun _ _ => 0⟩
        [AcceptRes.conn 4, AcceptRes.fail 11]).2.1 [some [⟨EPOLLIN, 3⟩, ⟨EPOLLHUP, 4⟩]]
      (by
        intro evs h
        have he : evs = [⟨EPOLLIN, 3⟩, ⟨EPOLLHUP, 4⟩] := by simpa using h
        subst he
        decide)⟩

/-! ## The high-water mark `fdmax` -/

/-- C6, counterexample: listener 3.  First batch: the listener is ready, descriptor 4 is
accepted and registered (`fdmax` becomes 4).  Second batch: 4 is ready and the handler
returns 1, so 4 is closed and cleared from `fds_master`.  The loop is back at `select`
with `fds_master = {3}` and `fdmax = 4`: `fdmax` is not the largest registered
descriptor. -/
theorem fdmax_stale_after_close :
    (select_loop ⟨linuxErrno, 3, true, fun _ _ => 1, fun _ _ => 0⟩ [some {3}, some {4}]
      (select_init ⟨linuxErrno, 3, true, fun _ _ => 1, fun _ _ => 0⟩
        [AcceptRes.conn 4, AcceptRes.fail 11])).fds_master = {3} ∧
    (select_loop ⟨linuxErrno, 3, true, fun _ _ => 1, fun _ _ => 0⟩ [some {3}, some {4}]
      (select_init ⟨linuxErrno, 3, true, fun _ _ => 1, fun _ _ => 0⟩
        [AcceptRes.conn 4, AcceptRes.fail 11])).fdmax = 4 ∧
    (select_loop ⟨linuxErrno, 3, true, fun _ _ => 1, fun _ _ => 0⟩ [some {3}, some {4}]
      (select_init ⟨linuxErrno, 3, true, fun _ _ => 1, fun _ _ => 0⟩
        [AcceptRes.conn 4, AcceptRes.fail 11])).flow = Flow.running ∧
    (select_loop ⟨linuxErrno, 3, true, fun _ _ => 1, fun _ _ => 0⟩ [some {3}, some {4}]
      (select_init ⟨linuxErrno, 3, true, fun _ _ => 1, fun _ _ => 0⟩
        [AcceptRes.conn 4, AcceptRes.fail 11])).trace =
      [Act.select_call 4 {3}, Act.accept_call, Act.fd_set 4, Act.on_accept 4, Act.accept_call,
       Act.select_call 5 {4, 3}, Act.read_handler 4, Act.close 4, Act.fd_clr 4] := by
  simp [select_loop, select_init, select_scan, select_dispatch, select_drain, select_result,
    tcp_accept, linuxErrno, AcceptRes.ret, AcceptRes.errno, accept_error_cond]

/-- C6, amended: at the top of every iteration of the `select` loop, `fdmax` is the
largest descriptor registered so far (the listener, or a descriptor put in
`fds_master` by `FD_SET` after an accept), whether or not it has been cleared since;
hence it is an upper bound of `fds_master`.  An index of the scan other than the
listener (in particular a handler-signalled close) leaves `fdmax` as it is. -/
theorem fdmax_high_water (c : Server) (accepts : List AcceptRes)
    (bs : List (Option (Finset Nat))) :
    ((select_loop c bs (select_init c accepts)).fdmax = c.listener_fd ∨
      Act.fd_set (select_loop c bs (select_init c accepts)).fdmax ∈
        (select_loop c bs (select_init c accepts)).trace) ∧
    c.listener_fd ≤ (select_loop c bs (select_init c accepts)).fdmax ∧
    (∀ fd, Act.fd_set fd ∈ (select_loop c bs (select_init c accepts)).trace →
      fd ≤ (select_loop c bs (select_init c accepts)).fdmax) ∧
    (∀ x ∈ (select_loop c bs (select_init c accepts)).fds_master,
      x ≤ (select_loop c bs (select_init c accepts)).fdmax) ∧
    (∀ (i : Nat) (s : Select), i ≠ c.listener_fd → (select_dispatch c i s).fdmax = s.fdmax) := by
  have h := selectInv_loop c bs _ (selectInv_init c accepts)
  have hb := h.bound
  obtain ⟨-, h2, -, h4, h5, -, -⟩ := h
  refine ⟨h5, h2, h4, hb, ?_⟩
  intro i s hi
  simp only [select_dispatch, if_neg hi]
  split
  · split <;> rfl
  · rfl

/-- Witness of the amended C6 on the run of the counterexample: `fdmax` (4) is still an
upper bound of `fds_master` (`{3}`) and was registered by an `FD_SET`. -/
theorem fdmax_high_water_witness :
    ((select_loop ⟨linuxErrno, 3, true, fun _ _ => 1, fun _ _ => 0⟩ [some {3}, some {4}]
        (select_init ⟨linuxErrno, 3, true, fun _ _ => 1, fun _ _ => 0⟩
          [AcceptRes.conn 4, AcceptRes.fail 11])).fdmax = 3 ∨
      Act.fd_set (select_loop ⟨linuxErrno, 3, true, fun _ _ => 1, fun _ _ => 0⟩
        [some {3}, some {4}] (select_init ⟨linuxErrno, 3, true, fun _ _ => 1, fun _ _ => 0⟩
          [AcceptRes.conn 4, AcceptRes.fail 11])).fdmax ∈
        (select_loop ⟨linuxErrno, 3, true, fun _ _ => 1, fun _ _ => 0⟩ [some {3}, some {4}]
          (select_init ⟨linuxErrno, 3, true, fun _ _ => 1, fun _ _ => 0⟩
            [AcceptRes.conn 4, AcceptRes.fail 11])).trace) ∧
    ∀ x ∈ (select_loop ⟨linuxErrno, 3, true, fun _ _ => 1, fun _ _ => 0⟩ [some {3}, some {4}]
        (select_init ⟨linuxErrno, 3, true, fun _ _ => 1, fun _ _ => 0⟩
          [AcceptRes.conn 4, AcceptRes.fail 11])).fds_master,
      x ≤ (select_loop ⟨linuxErrno, 3, true, fun _ _ => 1, fun _ _ => 0⟩ [some {3}, some {4}]
        (select_init ⟨linuxErrno, 3, true, fun _ _ => 1, fun _ _ => 0⟩
          [AcceptRes.conn 4, AcceptRes.fail 11])).fdmax :=
  ⟨(fdmax_high_water ⟨linuxErrno, 3, true, fun _ _ => 1, fun _ _ => 0⟩
      [AcceptRes.conn 4, AcceptRes.fail 11] [some {3}, some {4}]).1,
   (fdmax_high_water ⟨linuxErrno, 3, true, fun _ _ => 1, fun _ _ => 0⟩
      [AcceptRes.conn 4, AcceptRes.fail 11] [some {3}, some {4}]).2.2.2.1⟩

/-! ## Coverage of the scan -/

/-- What every elementary step keeps with respect to an earlier state `s₀`: the ready
set is the same, `fdmax` has not decreased, the trace has only grown, and a state that
is running comes from a running one. -/
theorem select_since_stable (c : Server) (i : Nat) (s₀ : Select) :
    SelectStable c i (fun s => s.fds_read = s₀.fds_read ∧ s₀.fdmax ≤ s.fdmax ∧
      (∃ T, s.trace = s₀.trace ++ T) ∧ (s.flow = Flow.running → s₀.flow = Flow.running)) where
  starve := by
    rintro s - ⟨h1, h2, h3, -⟩
    exact ⟨h1, h2, h3, fun h => by cases h⟩
  fail := by
    rintro s e rest - ⟨h1, h2, ⟨T, hT⟩, h4⟩
    exact ⟨h1, h2, ⟨T ++ _, by rw [hT, List.append_assoc]⟩, h4⟩
  conn := by
    rintro s fd rest - ⟨h1, h2, ⟨T, hT⟩, h4⟩
    refine ⟨h1, ?_, ⟨T ++ _, by rw [hT, List.append_assoc]⟩, h4⟩
    show s₀.fdmax ≤ if fd > s.fdmax then fd else s.fdmax
    split <;> omega
  keep := by
    rintro s - - - ⟨h1, h2, ⟨T, hT⟩, h4⟩
    exact ⟨h1, h2, ⟨T ++ _, by rw [hT, List.append_assoc]⟩, h4⟩
  drop := by
    rintro s - - - ⟨h1, h2, ⟨T, hT⟩, h4⟩
    exact ⟨h1, h2, ⟨T ++ _, by rw [hT, List.append_assoc]⟩, h4⟩

theorem select_dispatch_since (c : Server) (i : Nat) (s : Select) :
    (select_dispatch c i s).fds_read = s.fds_read ∧ s.fdmax ≤ (select_dispatch c i s).fdmax ∧
      (∃ T, (select_dispatch c i s).trace = s.trace ++ T) ∧
      ((select_dispatch c i s).flow = Flow.running → s.flow = Flow.running) :=
  select_dispatch_ind c i _ (select_since_stable c i s) s ⟨rfl, le_rfl, ⟨[], by simp⟩, id⟩

theorem select_drain_since (c : Server) (s : Select) :
    (∃ T, (select_drain c s.accepts s).trace = s.trace ++ T) :=
  (select_drain_ind c 0 _ (select_since_stable c 0 s) s.accepts s rfl
    ⟨rfl, le_rfl, ⟨[], by simp⟩, id⟩).2.2.1

/-- An index of the scan whose bit is set in `fds_read` is handled: the accept-drain
loop is run for the listener, `read_handler` is invoked for any other descriptor. -/
theorem select_dispatch_visits (c : Server) (i : Nat) (s : Select) (hi : i ∈ s.fds_read)
    (hrun : (select_dispatch c i s).flow = Flow.running) :
    ∃ T, (select_dispatch c i s).trace = s.trace ++ T ∧
      (if i = c.listener_fd then Act.accept_call ∈ T else Act.read_handler i ∈ T) := by
  by_cases hl : i = c.listener_fd
  · subst hl
    have hd : select_dispatch c c.listener_fd s = select_drain c s.accepts s := by
      simp [select_dispatch, hi]
    rw [hd] at hrun ⊢
    simp only [if_true]
    cases hacc : s.accepts with
    | nil =>
      rw [hacc] at hrun
      simp [select_drain] at hrun
    | cons a rest =>
      cases a with
      | fail e =>
        rw [select_drain_fail]
        exact ⟨_, rfl, by simp⟩
      | conn fd =>
        rw [select_drain_conn]
        obtain ⟨T, hT⟩ := select_drain_since c
          { s with accepts := rest, fds_master := insert fd s.fds_master,
                   fdmax := if fd > s.fdmax then fd else s.fdmax,
                   trace := s.trace ++ ([Act.accept_call, Act.fd_set fd] ++
                     if c.has_on_accept then [Act.on_accept fd] else []) }
        refine ⟨([Act.accept_call, Act.fd_set fd] ++
          if c.has_on_accept then [Act.on_accept fd] else []) ++ T, ?_, by simp⟩
        rw [hT]
        simp
  · simp only [if_neg hl]
    by_cases hr : c.read_handler s.nread i = 0
    · exact ⟨[Act.read_handler i], by simp [select_dispatch, hi, hl, hr], by simp⟩
    · exact ⟨[Act.read_handler i, Act.close i, Act.fd_clr i],
        by simp [select_dispatch, hi, hl, hr], by simp⟩

/-- A scan that runs to its end handles every descriptor of `fds_read` that lies within
the bound `fdmax` it started with. -/
theorem select_scan_visits (c : Server) (s : Select)
    (hrun : (select_scan c 0 s).flow = Flow.running) :
    ∃ T, (select_scan c 0 s).trace = s.trace ++ T ∧
      ∀ i ∈ s.fds_read, i ≤ s.fdmax →
        (if i = c.listener_fd then Act.accept_call ∈ T else Act.read_handler i ∈ T) := by
  have hstep : ∀ j s', j ≤ s'.fdmax →
      (s'.fds_read = s.fds_read ∧ s.fdmax ≤ s'.fdmax ∧ ∃ T, s'.trace = s.trace ++ T ∧
        (s'.flow = Flow.running → ∀ i ∈ s.fds_read, i < j →
          (if i = c.listener_fd then Act.accept_call ∈ T else Act.read_handler i ∈ T))) →
      ((select_dispatch c j s').fds_read = s.fds_read ∧
        s.fdmax ≤ (select_dispatch c j s').fdmax ∧
        ∃ T, (select_dispatch c j s').trace = s.trace ++ T ∧
          ((select_dispatch c j s').flow = Flow.running → ∀ i ∈ s.fds_read, i < j + 1 →
            (if i = c.listener_fd then Act.accept_call ∈ T else Act.read_handler i ∈ T))) := by
    rintro j s' - ⟨h1, h2, T, hT, hv⟩
    obtain ⟨d1, d2, ⟨T', hT'⟩, d4⟩ := select_dispatch_since c j s'
    refine ⟨d1.trans h1, le_trans h2 d2, T ++ T', by rw [hT', hT, List.append_assoc], ?_⟩
    intro hr i hi hlt
    by_cases hij : i = j
    · subst hij
      obtain ⟨T'', hT'', hvis⟩ := select_dispatch_visits c i s' (h1 ▸ hi) hr
      have : T' = T'' := List.append_cancel_left (hT'.symm.trans hT'')
      subst this
      split at hvis
      · rw [if_pos ‹_›]; exact List.mem_append_right _ hvis
      · rw [if_neg ‹_›]; exact List.mem_append_right _ hvis
    · have := hv (d4 hr) i hi (by omega)
      split at this
      · rw [if_pos ‹_›]; exact List.mem_append_left _ this
      · rw [if_neg ‹_›]; exact List.mem_append_left _ this
  obtain ⟨j, -, ⟨-, h2, T, hT, hv⟩, hend⟩ := select_scan_ind c
    (fun j s' => s'.fds_read = s.fds_read ∧ s.fdmax ≤ s'.fdmax ∧ ∃ T, s'.trace = s.trace ++ T ∧
      (s'.flow = Flow.running → ∀ i ∈ s.fds_read, i < j →
        (if i = c.listener_fd then Act.accept_call ∈ T else Act.read_handler i ∈ T)))
    hstep 0 s ⟨rfl, le_rfl, [], by simp, fun _ i _ h => absurd h (Nat.not_lt_zero i)⟩
  refine ⟨T, hT, ?_⟩
  intro i hi hle
  have := hend hrun
  exact hv hrun i hi (by omega)

theorem select_bound_stable (c : Server) (i : Nat) :
    SelectStable c i
      (fun s => c.listener_fd ≤ s.fdmax ∧ ∀ x ∈ s.fds_master, x ≤ s.fdmax) where
  starve := fun _ _ h => h
  fail := fun _ _ _ _ h => h
  conn := by
    rintro s fd rest - ⟨h1, h2⟩
    constructor
    · show c.listener_fd ≤ if fd > s.fdmax then fd else s.fdmax
      split <;> omega
    · intro x hx
      show x ≤ if fd > s.fdmax then fd else s.fdmax
      rcases Finset.mem_insert.1 hx with rfl | hx
      · split <;> omega
      · have := h2 x hx
        split <;> omega
  keep := fun _ _ _ _ h => h
  drop := by
    rintro s - - - ⟨h1, h2⟩
    exact ⟨h1, fun x hx => h2 x (Finset.mem_of_mem_erase hx)⟩

theorem select_loop_append (c : Server) (bs bs' : List (Option (Finset Nat))) :
    ∀ s : Select, s.flow = Flow.running →
      select_loop c (bs ++ bs') s =
        if (select_loop c bs s).flow = Flow.running then select_loop c bs' (select_loop c bs s)
        else select_loop c bs s := by
  induction bs with
  | nil => intro s h; simp [select_loop, h]
  | cons b bs ih =>
    intro s h
    cases b with
    | none => simp [select_loop]
    | some ready =>
      simp only [List.cons_append, select_loop]
      split
      · rename_i hrun
        exact ih _ hrun
      · rename_i hrun
        simp [hrun]

/-- C10: scan coverage in the `select` variant.
(1) At the top of every iteration `listener_fd ≤ fdmax` and `fdmax` is at least every
descriptor in `fds_master`, and every set that was handed to `select` lay below the
bound `fdmax + 1` handed with it.
(2) Every index of the scan keeps that bound, whether it accepts connections or closes
a descriptor, so the bound holds at every point of the loop.
(3) When `select` succeeds and the scan runs to its end, every registered descriptor
that is ready has been handled by the scan: the accept-drain loop was run if it is the
listener, `read_handler` was invoked on it otherwise. -/
theorem select_scan_covers (c : Server) (accepts : List AcceptRes) :
    (∀ bs : List (Option (Finset Nat)),
      c.listener_fd ≤ (select_loop c bs (select_init c accepts)).fdmax ∧
      (∀ x ∈ (select_loop c bs (select_init c accepts)).fds_master,
        x ≤ (select_loop c bs (select_init c accepts)).fdmax) ∧
      (∀ n fds, Act.select_call n fds ∈ (select_loop c bs (select_init c accepts)).trace →
        ∀ x ∈ fds, x < n)) ∧
    (∀ (i : Nat) (s : Select),
      (c.listener_fd ≤ s.fdmax ∧ ∀ x ∈ s.fds_master, x ≤ s.fdmax) →
      (c.listener_fd ≤ (select_dispatch c i s).fdmax ∧
        ∀ x ∈ (select_dispatch c i s).fds_master, x ≤ (select_dispatch c i s).fdmax)) ∧
    (∀ (bs : List (Option (Finset Nat))) (ready : Finset Nat),
      (select_loop c (bs ++ [some ready]) (select_init c accepts)).flow = Flow.running →
      ∃ T, (select_loop c (bs ++ [some ready]) (select_init c accepts)).trace =
          (select_loop c bs (select_init c accepts)).trace ++ T ∧
        ∀ i ∈ (select_loop c bs (select_init c accepts)).fds_master, i ∈ ready →
          (if i = c.listener_fd then Act.accept_call ∈ T else Act.read_handler i ∈ T)) := by
  refine ⟨?_, ?_, ?_⟩
  · intro bs
    have h := selectInv_loop c bs _ (selectInv_init c accepts)
    exact ⟨h.2.1, h.bound, fun n fds hm => (h.2.2.2.2.2.1 n fds hm).2⟩
  · intro i s h
    exact select_dispatch_ind c i _ (select_bound_stable c i) s h
  · intro bs ready hrun
    have hinv := selectInv_loop c bs _ (selectInv_init c accepts)
    have happ := select_loop_append c bs [some ready] (select_init c accepts) rfl
    by_cases hr : (select_loop c bs (select_init c accepts)).flow = Flow.running
    · rw [if_pos hr] at happ
      have hone : ∀ s : Select, select_loop c [some ready] s =
          select_scan c 0
            { s with fds_read := select_result (s.fdmax + 1) s.fds_master ready,
                     trace := s.trace ++ [Act.select_call (s.fdmax + 1) s.fds_master] } := by
        intro s
        simp [select_loop]
      rw [happ, hone] at hrun ⊢
      obtain ⟨T, hT, hv⟩ := select_scan_visits c _ hrun
      refine ⟨Act.select_call ((select_loop c bs (select_init c accepts)).fdmax + 1)
        (select_loop c bs (select_init c accepts)).fds_master :: T, by rw [hT]; simp, ?_⟩
      intro i hi hready
      have hle := hinv.bound i hi
      have hmem : i ∈ select_result
          ((select_loop c bs (select_init c accepts)).fdmax + 1)
          (select_loop c bs (select_init c accepts)).fds_master ready := by
        simp only [select_result, Finset.mem_filter]
        exact ⟨hi, Nat.lt_succ_of_le hle, hready⟩
      have := hv i hmem hle
      split at this
      · rw [if_pos ‹_›]; exact List.mem_cons_of_mem _ this
      · rw [if_neg ‹_›]; exact List.mem_cons_of_mem _ this
    · rw [if_neg hr] at happ
      rw [happ] at hrun
      exact absurd hrun hr

/-- Witness of C10: listener 3 with descriptor 5 accepted in a first batch; in the
second batch both are ready and both are handled. -/
theorem select_scan_covers_witness :
    ∃ T, (select_loop ⟨linuxErrno, 3, true, fun _ _ => 0, fun _ _ => 0⟩
          ([some {3}] ++ [some {3, 5}])
          (select_init ⟨linuxErrno, 3, true, fun _ _ => 0, fun _ _ => 0⟩
            [AcceptRes.conn 5, AcceptRes.fail 11, AcceptRes.fail 11])).trace =
        (select_loop ⟨linuxErrno, 3, true, fun _ _ => 0, fun _ _ => 0⟩ [some {3}]
          (select_init ⟨linuxErrno, 3, true, fun _ _ => 0, fun _ _ => 0⟩
            [AcceptRes.conn 5, AcceptRes.fail 11, AcceptRes.fail 11])).trace ++ T ∧
      Act.accept_call ∈ T ∧ Act.read_handler 5 ∈ T := by
  obtain ⟨T, hT, hv⟩ := (select_scan_covers ⟨linuxErrno, 3, true, fun _ _ => 0, fun _ _ => 0⟩
    [AcceptRes.conn 5, AcceptRes.fail 11, AcceptRes.fail 11]).2.2 [some {3}] {3, 5}
    (by simp [select_loop, select_init, select_scan, select_dispatch, select_drain,
      select_result, tcp_accept, linuxErrno, AcceptRes.ret, AcceptRes.errno, accept_error_cond])
  have hm : ∀ i, i = 3 ∨ i = 5 →
      i ∈ (select_loop ⟨linuxErrno, 3, true, fun _ _ => 0, fun _ _ => 0⟩ [some {3}]
          (select_init ⟨linuxErrno, 3, true, fun _ _ => 0, fun _ _ => 0⟩
            [AcceptRes.conn 5, AcceptRes.fail 11, AcceptRes.fail 11])).fds_master := by
    intro i hi
    simp [select_loop, select_init, select_scan, select_dispatch, select_drain,
      select_result, tcp_accept, linuxErrno, AcceptRes.ret, AcceptRes.errno, accept_error_cond]
    rcases hi with h | h <;> simp [h]
  refine ⟨T, hT, ?_, ?_⟩
  · simpa using hv 3 (hm 3 (Or.inl rfl)) (by simp)
  · simpa using hv 5 (hm 5 (Or.inr rfl)) (by simp)

/-! ## The two variants side by side -/

/-- Induction over a scan that starts in a running state: the step is only ever taken
from a running state. -/
theorem select_scan_ind_running (c : Server) (P : Nat → Select → Prop)
    (hstep : ∀ i s, i ≤ s.fdmax → s.flow = Flow.running → P i s →
      P (i + 1) (select_dispatch c i s)) :
    ∀ i s, s.flow = Flow.running → P i s →
      ∃ j, i ≤ j ∧ P j (select_scan c i s) ∧
        ((select_scan c i s).flow = Flow.running → (select_scan c i s).fdmax < j) := by
  intro i s
  induction i, s using select_scan.induct c with
  | case1 i s hle s₁ hrun ih =>
    intro hr hP
    rw [select_scan_eq, if_pos hle, if_pos hrun]
    obtain ⟨j, hj, h⟩ := ih hrun (hstep i s hle hr hP)
    exact ⟨j, by omega, h⟩
  | case2 i s hle s₁ hrun =>
    intro hr hP
    rw [select_scan_eq, if_pos hle, if_neg hrun]
    exact ⟨i + 1, by omega, hstep i s hle hr hP, fun h => absurd h hrun⟩
  | case3 i s hle =>
    intro _ hP
    rw [select_scan_eq, if_neg hle]
    exact ⟨i, le_rfl, hP, fun _ => by omega⟩

theorem Agree.advance {te ts : List Act} {e : Epoll} {s : Select} (h : Agree te ts e s)
    (e' : Epoll) (s' : Select) (A B : List Act) (ha : e'.accepts = s'.accepts)
    (hn : e'.nread = s'.nread) (hf : e'.flow = s'.flow) (hA : e'.trace = e.trace ++ A)
    (hB : s'.trace = s.trace ++ B) (hAB : A.filter Act.observable = B.filter Act.observable) :
    Agree te ts e' s' := by
  obtain ⟨-, -, -, Te, Ts, hTe, hTs, hobs⟩ := h
  refine ⟨ha, hn, hf, Te ++ A, Ts ++ B, by rw [hA, hTe, List.append_assoc],
    by rw [hB, hTs, List.append_assoc], ?_⟩
  rw [List.filter_append, List.filter_append, hobs, hAB]

theorem logs_not_observable (c : Server) (e : Int) :
    (Act.accept_call :: (tcp_accept c.E (AcceptRes.fail e)).2 ++
      if e = c.E.EAGAIN ∨ e = c.E.EWOULDBLOCK then [] else [Act.log "accept"]).filter
        Act.observable = [] := by
  rw [List.filter_eq_nil_iff]
  intro a ha
  rcases fail_round_mem c e a ha with rfl | ⟨m, rfl⟩ <;> simp [Act.observable]

/-- With registrations that succeed, the two accept-drain loops keep the variants at the
same point. -/
theorem drain_agree (c : Server) (hctl : ∀ k fd, c.epoll_ctl k fd ≠ -1) (te ts : List Act)
    (l : List AcceptRes) :
    ∀ (e : Epoll) (s : Select), Agree te ts e s →
      Agree te ts (epoll_drain c l e) (select_drain c l s) := by
  induction l with
  | nil =>
    intro e s h
    exact h.advance _ _ [] [] (by simp [epoll_drain, select_drain])
      (by simpa [epoll_drain, select_drain] using h.2.1) (by simp [epoll_drain, select_drain])
      (by simp [epoll_drain]) (by simp [select_drain]) rfl
  | cons a rest ih =>
    intro e s h
    cases a with
    | fail err =>
      rw [epoll_drain_fail, select_drain_fail]
      exact h.advance _ _ _ _ rfl h.2.1 h.2.2.1 rfl rfl rfl
    | conn fd =>
      rw [epoll_drain_conn c fd rest e (hctl _ _), select_drain_conn]
      apply ih
      refine h.advance _ _ _ _ rfl h.2.1 h.2.2.1 rfl rfl ?_
      cases c.has_on_accept <;> simp [Act.observable]

/-- With registrations that succeed, a plainly readable event of the `EPOLL` variant and
the index of the `select` scan for the same ready descriptor keep the variants at the
same point. -/
theorem event_agree (c : Server) (hctl : ∀ k fd, c.epoll_ctl k fd ≠ -1) (te ts : List Act)
    (ev : EpollEvent) (e : Epoll) (s : Select) (hb : ev.broken = false)
    (hin : ev.fd ∈ s.fds_read) (h : Agree te ts e s) :
    Agree te ts (epoll_event c ev e) (select_dispatch c ev.fd s) := by
  by_cases hl : ev.fd = c.listener_fd
  · have he : epoll_event c ev e = epoll_drain c s.accepts e := by
      simp [epoll_event, hb, hl, h.1]
    have hs : select_dispatch c ev.fd s = select_drain c s.accepts s := by
      have hin' : c.listener_fd ∈ s.fds_read := hl ▸ hin
      simp [select_dispatch, hin', hl]
    rw [he, hs]
    exact drain_agree c hctl te ts _ e s h
  · have hl' : ¬ c.listener_fd = ev.fd := fun h => hl h.symm
    by_cases hr : c.read_handler s.nread ev.fd = 0
    · have he : epoll_event c ev e =
          { e with nread := e.nread + 1, trace := e.trace ++ [Act.read_handler ev.fd] } := by
        simp [epoll_event, hb, hl', h.2.1, hr]
      have hs : select_dispatch c ev.fd s =
          { s with nread := s.nread + 1, trace := s.trace ++ [Act.read_handler ev.fd] } := by
        simp [select_dispatch, hin, hl, hr]
      rw [he, hs]
      exact h.advance _ _ _ _ h.1 (by simp [h.2.1]) h.2.2.1 rfl rfl rfl
    · have he : epoll_event c ev e =
          { e with nread := e.nread + 1,
                   trace := e.trace ++ [Act.read_handler ev.fd, Act.close ev.fd] } := by
        simp [epoll_event, hb, hl', h.2.1, hr]
      have hs : select_dispatch c ev.fd s =
          { s with nread := s.nread + 1, fds_master := s.fds_master.erase ev.fd,
                   trace := s.trace ++
                     [Act.read_handler ev.fd, Act.close ev.fd, Act.fd_clr ev.fd] } := by
        simp [select_dispatch, hin, hl, hr]
      rw [he, hs]
      exact h.advance _ _ _ _ h.1 (by simp [h.2.1]) h.2.2.1 rfl rfl (by simp [Act.observable])

theorem select_dispatch_skip (c : Server) (i : Nat) (s : Select) (h : i ∉ s.fds_read) :
    select_dispatch c i s = s := by
  simp [select_dispatch, h]

/-- With registrations that succeed, the `EPOLL` variant over the plainly readable events
`evs` and the scan of the `select` variant end at the same point, when `evs` lists the
descriptors of `fds_read` once each in ascending order. -/
theorem scan_agree (c : Server) (hctl : ∀ k fd, c.epoll_ctl k fd ≠ -1) (te ts : List Act)
    (evs : List EpollEvent) (e : Epoll) (s : Select) (hrun : s.flow = Flow.running)
    (hag : Agree te ts e s) (hb : ∀ ev ∈ evs, ev.broken = false)
    (hsorted : (evs.map EpollEvent.fd).Pairwise (· < ·))
    (hmem : ∀ x, x ∈ evs.map EpollEvent.fd ↔ x ∈ s.fds_read)
    (hbound : ∀ x ∈ s.fds_read, x ≤ s.fdmax) :
    Agree te ts (epoll_events c evs e) (select_scan c 0 s) := by
  have hstep : ∀ j s', j ≤ s'.fdmax → s'.flow = Flow.running →
      (s'.fds_read = s.fds_read ∧ s.fdmax ≤ s'.fdmax ∧
        (s'.flow = Flow.running → ∃ e' evs', epoll_events c evs e = epoll_events c evs' e' ∧
          Agree te ts e' s' ∧ (∀ ev ∈ evs', ev.broken = false) ∧
          (evs'.map EpollEvent.fd).Pairwise (· < ·) ∧
          ∀ x, x ∈ evs'.map EpollEvent.fd ↔ x ∈ s.fds_read ∧ j ≤ x) ∧
        (s'.flow ≠ Flow.running → Agree te ts (epoll_events c evs e) s')) →
      ((select_dispatch c j s').fds_read = s.fds_read ∧
        s.fdmax ≤ (select_dispatch c j s').fdmax ∧
        ((select_dispatch c j s').flow = Flow.running →
          ∃ e' evs', epoll_events c evs e = epoll_events c evs' e' ∧
          Agree te ts e' (select_dispatch c j s') ∧ (∀ ev ∈ evs', ev.broken = false) ∧
          (evs'.map EpollEvent.fd).Pairwise (· < ·) ∧
          ∀ x, x ∈ evs'.map EpollEvent.fd ↔ x ∈ s.fds_read ∧ j + 1 ≤ x) ∧
        ((select_dispatch c j s').flow ≠ Flow.running →
          Agree te ts (epoll_events c evs e) (select_dispatch c j s'))) := by
    rintro j s' - hr ⟨h1, h2, h3, -⟩
    obtain ⟨e', evs', heq, hag', hb', hs', hm'⟩ := h3 hr
    obtain ⟨d1, d2, -, -⟩ := select_dispatch_since c j s'
    refine ⟨d1.trans h1, le_trans h2 d2, ?_, ?_⟩
    · intro hdr
      by_cases hj : j ∈ s.fds_read
      · cases evs' with
        | nil =>
          have := (hm' j).2 ⟨hj, le_rfl⟩
          simp at this
        | cons ev rest =>
          have hevfd : ev.fd = j := by
            have hin := (hm' j).2 ⟨hj, le_rfl⟩
            have hge := ((hm' ev.fd).1 (by simp)).2
            simp only [List.map_cons, List.mem_cons] at hin
            rcases hin with h | h
            · exact h.symm
            · have := (List.pairwise_cons.1 hs').1 j h
              omega
          have hag'' := event_agree c hctl te ts ev e' s' (hb' ev (by simp))
            (by rw [hevfd, h1]; exact hj) hag'
          rw [hevfd] at hag''
          have hflow : (epoll_event c ev e').flow = Flow.running := by
            rw [hag''.2.2.1]; exact hdr
          refine ⟨epoll_event c ev e', rest, ?_, hag'', fun x hx => hb' x (by simp [hx]),
            (List.pairwise_cons.1 hs').2, ?_⟩
          · rw [heq]
            simp [epoll_events, hflow]
          · intro x
            constructor
            · intro hx
              have h' := (hm' x).1 (by simp only [List.map_cons]; exact List.mem_cons_of_mem _ hx)
              have := (List.pairwise_cons.1 hs').1 x hx
              exact ⟨h'.1, by omega⟩
            · rintro ⟨hxR, hxj⟩
              have h' := (hm' x).2 ⟨hxR, by omega⟩
              simp only [List.map_cons, List.mem_cons] at h'
              rcases h' with h' | h'
              · omega
              · exact h'
      · have hskip := select_dispatch_skip c j s' (by rw [h1]; exact hj)
        refine ⟨e', evs', heq, by rw [hskip]; exact hag', hb', hs', ?_⟩
        intro x
        rw [hm' x]
        constructor
        · rintro ⟨hxR, hxj⟩
          refine ⟨hxR, ?_⟩
          have : x ≠ j := fun h => hj (h ▸ hxR)
          omega
        · rintro ⟨hxR, hxj⟩
          exact ⟨hxR, by omega⟩
    · intro hdr
      by_cases hj : j ∈ s.fds_read
      · cases evs' with
        | nil =>
          have := (hm' j).2 ⟨hj, le_rfl⟩
          simp at this
        | cons ev rest =>
          have hevfd : ev.fd = j := by
            have hin := (hm' j).2 ⟨hj, le_rfl⟩
            have hge := ((hm' ev.fd).1 (by simp)).2
            simp only [List.map_cons, List.mem_cons] at hin
            rcases hin with h | h
            · exact h.symm
            · have := (List.pairwise_cons.1 hs').1 j h
              omega
          have hag'' := event_agree c hctl te ts ev e' s' (hb' ev (by simp))
            (by rw [hevfd, h1]; exact hj) hag'
          rw [hevfd] at hag''
          have hflow : (epoll_event c ev e').flow ≠ Flow.running := by
            rw [hag''.2.2.1]; exact hdr
          have : epoll_events c evs e = epoll_event c ev e' := by
            rw [heq]
            simp [epoll_events, hflow]
          rw [this]
          exact hag''
      · have hskip := select_dispatch_skip c j s' (by rw [h1]; exact hj)
        rw [hskip] at hdr
        exact absurd hr hdr
  obtain ⟨j, -, ⟨-, h2, h3, h4⟩, hend⟩ := select_scan_ind_running c
    (fun j s' => s'.fds_read = s.fds_read ∧ s.fdmax ≤ s'.fdmax ∧
      (s'.flow = Flow.running → ∃ e' evs', epoll_events c evs e = epoll_events c evs' e' ∧
        Agree te ts e' s' ∧ (∀ ev ∈ evs', ev.broken = false) ∧
        (evs'.map EpollEvent.fd).Pairwise (· < ·) ∧
        ∀ x, x ∈ evs'.map EpollEvent.fd ↔ x ∈ s.fds_read ∧ j ≤ x) ∧
      (s'.flow ≠ Flow.running → Agree te ts (epoll_events c evs e) s'))
    hstep 0 s hrun
    ⟨rfl, le_rfl, fun _ => ⟨e, evs, rfl, hag, hb, hsorted, fun x => by simp [hmem x]⟩,
      fun h => absurd hrun h⟩
  by_cases hfin : (select_scan c 0 s).flow = Flow.running
  · obtain ⟨e', evs', heq, hag', -, -, hm'⟩ := h3 hfin
    have hlt := hend hfin
    have hnil : evs' = [] := by
      cases evs' with
      | nil => rfl
      | cons ev rest =>
        have := (hm' ev.fd).1 (by simp)
        have := hbound ev.fd this.1
        omega
    rw [heq, hnil]
    simpa [epoll_events] using hag'
  · exact h4 hfin

/-- C7, counterexample: listener 3, one batch in which the listener is plainly readable,
`accept4` returns descriptor 4 and then fails with would-block, and `epoll_ctl` fails.
The `EPOLL` variant leaves through `exit:` without any observable action; the `select`
variant, which has no registration that can fail, invokes `on_accept(4)`. -/
theorem variants_differ_when_registration_fails :
    (epoll_loop ⟨linuxErrno, 3, true, fun _ _ => 0, fun _ _ => -1⟩ [some [⟨EPOLLIN, 3⟩]]
        (epoll_init [AcceptRes.conn 4, AcceptRes.fail 11])).trace =
      [Act.epoll_wait, Act.accept_call, Act.epoll_add 4, Act.log "epoll_ctl"] ∧
    (epoll_loop ⟨linuxErrno, 3, true, fun _ _ => 0, fun _ _ => -1⟩ [some [⟨EPOLLIN, 3⟩]]
        (epoll_init [AcceptRes.conn 4, AcceptRes.fail 11])).flow = Flow.exited ∧
    (select_loop ⟨linuxErrno, 3, true, fun _ _ => 0, fun _ _ => -1⟩ [some {3}]
        (select_init ⟨linuxErrno, 3, true, fun _ _ => 0, fun _ _ => -1⟩
          [AcceptRes.conn 4, AcceptRes.fail 11])).trace =
      [Act.select_call 4 {3}, Act.accept_call, Act.fd_set 4, Act.on_accept 4,
       Act.accept_call] ∧
    (select_loop ⟨linuxErrno, 3, true, fun _ _ => 0, fun _ _ => -1⟩ [some {3}]
        (select_init ⟨linuxErrno, 3, true, fun _ _ => 0, fun _ _ => -1⟩
          [AcceptRes.conn 4, AcceptRes.fail 11])).flow = Flow.running := by
  refine ⟨by decide, by decide, ?_, ?_⟩ <;>
  simp [select_loop, select_init, select_scan, select_dispatch, select_drain, select_result,
    tcp_accept, linuxErrno, AcceptRes.ret, AcceptRes.errno, accept_error_cond]

/-- C7, amended: take the two variants at the same point (both running, same accept
results to come, same `read_handler` and the same number of invocations made), and let
every `epoll_ctl` registration succeed.  For every batch in which `select` reports the
ready set `ready` and `epoll_wait` fills in plainly readable events `evs` that list the
descriptors `select` leaves in `fds_read` once each in ascending order, one iteration of
the two event loops performs the same `on_accept`, `read_handler` and `close` actions in
the same order, and leaves the variants at the same point again. -/
theorem variants_agree_on_batch (c : Server) (hctl : ∀ k fd, c.epoll_ctl k fd ≠ -1)
    (e₀ : Epoll) (s₀ : Select) (evs : List EpollEvent) (ready : Finset Nat)
    (hs : s₀.flow = Flow.running) (he : e₀.flow = Flow.running)
    (hacc : e₀.accepts = s₀.accepts) (hn : e₀.nread = s₀.nread)
    (hb : ∀ ev ∈ evs, ev.broken = false)
    (hsorted : (evs.map EpollEvent.fd).Pairwise (· < ·))
    (hmem : ∀ x, x ∈ evs.map EpollEvent.fd ↔
      x ∈ select_result (s₀.fdmax + 1) s₀.fds_master ready) :
    ∃ Te Ts : List Act,
      (epoll_loop c [some evs] e₀).trace = e₀.trace ++ Te ∧
      (select_loop c [some ready] s₀).trace = s₀.trace ++ Ts ∧
      Te.filter Act.observable = Ts.filter Act.observable ∧
      (epoll_loop c [some evs] e₀).flow = (select_loop c [some ready] s₀).flow ∧
      (epoll_loop c [some evs] e₀).accepts = (select_loop c [some ready] s₀).accepts ∧
      (epoll_loop c [some evs] e₀).nread = (select_loop c [some ready] s₀).nread := by
  have h0 : Agree e₀.trace s₀.trace
      { e₀ with trace := e₀.trace ++ [Act.epoll_wait] }
      { s₀ with fds_read := select_result (s₀.fdmax + 1) s₀.fds_master ready,
                trace := s₀.trace ++ [Act.select_call (s₀.fdmax + 1) s₀.fds_master] } :=
    ⟨hacc, hn, he.trans hs.symm, [Act.epoll_wait],
      [Act.select_call (s₀.fdmax + 1) s₀.fds_master], rfl, rfl, by simp [Act.observable]⟩
  have h1 := scan_agree c hctl e₀.trace s₀.trace evs
    { e₀ with trace := e₀.trace ++ [Act.epoll_wait] }
    { s₀ with fds_read := select_result (s₀.fdmax + 1) s₀.fds_master ready,
              trace := s₀.trace ++ [Act.select_call (s₀.fdmax + 1) s₀.fds_master] }
    hs h0 hb hsorted hmem
    (by
      intro x hx
      have := (Finset.mem_filter.1 hx).2.1
      show x ≤ s₀.fdmax
      omega)
  have hE : epoll_loop c [some evs] e₀ =
      epoll_events c evs { e₀ with trace := e₀.trace ++ [Act.epoll_wait] } := by
    simp [epoll_loop]
  have hS : select_loop c [some ready] s₀ =
      select_scan c 0
        { s₀ with fds_read := select_result (s₀.fdmax + 1) s₀.fds_master ready,
                  trace := s₀.trace ++ [Act.select_call (s₀.fdmax + 1) s₀.fds_master] } := by
    simp [select_loop]
  rw [hE, hS]
  obtain ⟨a1, a2, a3, Te, Ts, hTe, hTs, hobs⟩ := h1
  exact ⟨Te, Ts, hTe, hTs, hobs, a3, a1, a2⟩

/-- Witness of the amended C7: listener 3 ready with one pending connection (descriptor
4), registrations succeed. -/
theorem variants_agree_on_batch_witness :
    ∃ Te Ts : List Act,
      (epoll_loop ⟨linuxErrno, 3, true, fun _ _ => 0, fun _ _ => 0⟩ [some [⟨EPOLLIN, 3⟩]]
        (epoll_init [AcceptRes.conn 4, AcceptRes.fail 11])).trace =
          (epoll_init [AcceptRes.conn 4, AcceptRes.fail 11]).trace ++ Te ∧
      (select_loop ⟨linuxErrno, 3, true, fun _ _ => 0, fun _ _ => 0⟩ [some {3}]
        (select_init ⟨linuxErrno, 3, true, fun _ _ => 0, fun _ _ => 0⟩
          [AcceptRes.conn 4, AcceptRes.fail 11])).trace =
          (select_init ⟨linuxErrno, 3, true, fun _ _ => 0, fun _ _ => 0⟩
            [AcceptRes.conn 4, AcceptRes.fail 11]).trace ++ Ts ∧
      Te.filter Act.observable = Ts.filter Act.observable := by
  obtain ⟨Te, Ts, h1, h2, h3, -⟩ :=
    variants_agree_on_batch ⟨linuxErrno, 3, true, fun _ _ => 0, fun _ _ => 0⟩
      (by intro k fd; simp)
      (epoll_init [AcceptRes.conn 4, AcceptRes.fail 11])
      (select_init ⟨linuxErrno, 3, true, fun _ _ => 0, fun _ _ => 0⟩
        [AcceptRes.conn 4, AcceptRes.fail 11])
      [⟨EPOLLIN, 3⟩] {3} rfl rfl rfl rfl (by decide) (by simp)
      (by
        intro x
        simp only [select_result, select_init, List.map_cons, List.map_nil, List.mem_singleton,
          Finset.mem_filter, Finset.mem_singleton]
        omega)
  exact ⟨Te, Ts, h1, h2, h3⟩

end Libserv
